import Mathlib

/-!
Verification of go-smilo, Sport consensus backend.

A shallow embedding of

* `backend.HandleMsg` and `backend.NewChainHead`
  (`consensus/sport/backend/backend_handler_sport.go`),
* `EncodeExtraDataFromFullnodes` (`consensus/sport/backend/backend_engine_test.go`),
* the extra-data codec (`ExtractSportExtra`, `prepareExtra`, `writeSeal`,
  `writeCommittedSeals`) that the engine tests exercise,

together with the library functions they call: go-ethereum `rlp` and `hexutil`,
and the `hashicorp/golang-lru` ARC cache.

Go byte slices are lists of `UInt8`; a Go method that mutates its receiver returns the new
value next to its result; a nil-pointer dereference (a panic) is the result `none`.
-/

namespace Smilo

/-- A Go byte slice. -/
abbrev Bytes := List UInt8

/-! ## go-ethereum `rlp` -/

namespace rlp

/-- Big-endian bytes of `i`, at most `fuel` of them, without leading zero bytes
(one zero byte for `0`). -/
def putintAux : Nat → Nat → Bytes
  | 0, _ => []
  | fuel + 1, i =>
    if i < 256 then [UInt8.ofNat i]
    else putintAux fuel (i / 256) ++ [UInt8.ofNat (i % 256)]

/-- Go `putint`: the minimal big-endian form of a `uint64` (eight bytes at most). -/
def putint (i : Nat) : Bytes := putintAux 8 i

/-- Go `puthead`: the header of an item whose content has `size` bytes. -/
def puthead (smalltag largetag : Nat) (size : Nat) : Bytes :=
  if size < 56 then [UInt8.ofNat (smalltag + size)]
  else UInt8.ofNat (largetag + (putint size).length) :: putint size

/-- Encoding of a byte string (Go `encbuf.encodeString` / `writeBytes`): a single byte
below `0x80` is its own encoding, anything else gets a string header. -/
def encodeString (b : Bytes) : Bytes :=
  match b with
  | [c] => if c.toNat < 0x80 then [c] else puthead 0x80 0xB7 1 ++ [c]
  | _ => puthead 0x80 0xB7 b.length ++ b

/-- Encoding of a list whose items are already encoded and concatenated in `payload`. -/
def encodeList (payload : Bytes) : Bytes :=
  puthead 0xC0 0xF7 payload.length ++ payload

/-- Encoding of a list of byte strings. -/
def encodeStrings (l : List Bytes) : Bytes :=
  encodeList (l.map encodeString).flatten

/-- Value of a big-endian byte sequence. -/
def fromBE (b : Bytes) : Nat := b.foldl (fun acc c => acc * 256 + c.toNat) 0

/-- Go `readSize`: a size written in `slen` big-endian bytes at the head of `b`. Input
that ends early, a leading zero byte and a size below 56 are errors. -/
def readSize (b : Bytes) (slen : Nat) : Option (Nat × Bytes) :=
  if b.length < slen then none
  else if (b.take slen).head? = some 0 then none
  else if fromBE (b.take slen) < 56 then none
  else some (fromBE (b.take slen), b.drop slen)

/-- Takes `size` content bytes off `b`. -/
def takeContent (size : Nat) (b : Bytes) : Option (Bytes × Bytes) :=
  if b.length < size then none else some (b.take size, b.drop size)

/-- Go `rlp.SplitString`: content of the string at the head of `b`, and the rest.
Fails on a list, on truncated input and on a non-canonical size. -/
def SplitString : Bytes → Option (Bytes × Bytes)
  | [] => none
  | c :: rest =>
    if c.toNat < 0x80 then some ([c], rest)
    else if c.toNat < 0xB8 then
      if c.toNat = 0x81 ∧ (rest.head?.map fun x => decide (x.toNat < 0x80)) = some true then none
      else takeContent (c.toNat - 0x80) rest
    else if c.toNat < 0xC0 then
      match readSize rest (c.toNat - 0xB7) with
      | none => none
      | some (size, rest1) => takeContent size rest1
    else none

/-- Go `rlp.SplitList`: payload of the list at the head of `b`, and the rest. -/
def SplitList : Bytes → Option (Bytes × Bytes)
  | [] => none
  | c :: rest =>
    if c.toNat < 0xC0 then none
    else if c.toNat < 0xF8 then takeContent (c.toNat - 0xC0) rest
    else
      match readSize rest (c.toNat - 0xF7) with
      | none => none
      | some (size, rest1) => takeContent size rest1

/-- Splits a list payload into the byte strings it holds; every item takes at least one
byte, so `fuel = b.length` always suffices. -/
def splitStringsAux : Nat → Bytes → Option (List Bytes)
  | _, [] => some []
  | 0, _ :: _ => none
  | fuel + 1, c :: rest =>
    match SplitString (c :: rest) with
    | none => none
    | some (s, rest1) =>
      match splitStringsAux fuel rest1 with
      | none => none
      | some l => some (s :: l)

/-- The byte strings of a list payload. -/
def splitStrings (b : Bytes) : Option (List Bytes) := splitStringsAux b.length b

end rlp

/-! ## go-ethereum `common` and `hexutil` -/

/-- The constant `common.AddressLength`. -/
def AddressLength : Nat := 20

/-- Go `common.Address`, a `[20]byte`. -/
def Address : Type := { b : Bytes // b.length = AddressLength }

instance : DecidableEq Address := inferInstanceAs (DecidableEq { b : Bytes // b.length = AddressLength })

/-- The address held by a byte string of the right length (decoding into `[20]byte`). -/
def toAddress (b : Bytes) : Option Address :=
  if h : b.length = AddressLength then some ⟨b, h⟩ else none

/-- Decoding of a list of byte strings into addresses; one wrong length fails it. -/
def toAddresses : List Bytes → Option (List Address)
  | [] => some []
  | b :: l =>
    match toAddress b, toAddresses l with
    | some a, some as => some (a :: as)
    | _, _ => none

/-- Error values returned by the functions below. -/
inductive Error where
  | ErrStoppedEngine
  | errDecodeFailed
  | errInvalidSignature
  | errInvalidCommittedSeals
  | FormatError
  | ErrEmptyString
  | ErrMissingPrefix
  | ErrOddLength
  | ErrSyntax
  deriving DecidableEq, Repr

deriving instance DecidableEq for Except

/-- Go `hextable`. -/
def hextable : List Char :=
  ['0', '1', '2', '3', '4', '5', '6', '7', '8', '9', 'a', 'b', 'c', 'd', 'e', 'f']

/-- Go `hex.EncodeToString` on one byte: high nibble, then low nibble. -/
def encodeByte (b : UInt8) : List Char :=
  [hextable.getD (b.toNat / 16) '0', hextable.getD (b.toNat % 16) '0']

/-- Go `common.Bytes2Hex` (lower-case hex, no marker in front). -/
def Bytes2Hex (d : Bytes) : String := String.mk (d.map encodeByte).flatten

/-- Go `fromHexChar`. -/
def fromHexChar (c : Char) : Option Nat :=
  if '0'.toNat ≤ c.toNat ∧ c.toNat ≤ '9'.toNat then some (c.toNat - '0'.toNat)
  else if 'a'.toNat ≤ c.toNat ∧ c.toNat ≤ 'f'.toNat then some (c.toNat - 'a'.toNat + 10)
  else if 'A'.toNat ≤ c.toNat ∧ c.toNat ≤ 'F'.toNat then some (c.toNat - 'A'.toNat + 10)
  else none

/-- Go `hex.DecodeString` on the characters of the string. -/
def decodeHex : List Char → Except Error Bytes
  | [] => .ok []
  | [c] => if (fromHexChar c).isSome then .error .ErrOddLength else .error .ErrSyntax
  | c1 :: c2 :: rest =>
    match fromHexChar c1, fromHexChar c2 with
    | some a, some b =>
      match decodeHex rest with
      | .ok l => .ok (UInt8.ofNat (a * 16 + b) :: l)
      | .error e => .error e
    | _, _ => .error .ErrSyntax

namespace hexutil

/-- Go `hexutil.Decode`: a hex string with the `0x` marker in front, as bytes. -/
def Decode (input : String) : Except Error Bytes :=
  match input.data with
  | [] => .error .ErrEmptyString
  | '0' :: 'x' :: rest => decodeHex rest
  | '0' :: 'X' :: rest => decodeHex rest
  | _ => .error .ErrMissingPrefix

end hexutil

/-! ## `types.Header`, `types.SportExtra` and the extra-data codec -/

/-- The fields of `types.Header` that the engine tests read or set. Only `Extra` carries
consensus metadata. -/
structure Header where
  ParentHash : Bytes
  UncleHash : Bytes
  Difficulty : Int
  Number : Int
  Time : Int
  Extra : Bytes
  MixDigest : Bytes
  Nonce : Bytes
  deriving DecidableEq

/-- Go `types.SportExtra`, as the engine tests build it. -/
structure SportExtra where
  Fullnodes : List Address
  Seal : Bytes
  CommittedSeal : List Bytes
  deriving DecidableEq

/-- Modelled from the spec: `SportExtra.EncodeRLP` (package `types`, not among the sources),
the canonical encoding of the payload: the RLP list of the validator list, the proposer
seal and the committed-seal list. The byte vectors of `TestPrepareExtra` and
`TestWriteSeal` have this shape. -/
def SportExtra.EncodeRLP (ist : SportExtra) : Bytes :=
  rlp.encodeList
    (rlp.encodeStrings (ist.Fullnodes.map Subtype.val) ++ rlp.encodeString ist.Seal ++
      rlp.encodeStrings ist.CommittedSeal)

/-- Go `rlp.EncodeToBytes(&ist)`: the encoder of `SportExtra` has no failing case. -/
def rlp.EncodeToBytes (ist : SportExtra) : Except Error Bytes := .ok ist.EncodeRLP

/-- Modelled from the spec: `SportExtra.DecodeRLP` (package `types`, not among the sources),
deserialising the three-field structure from exactly the given bytes. -/
def SportExtra.DecodeRLP (b : Bytes) : Option SportExtra :=
  match rlp.SplitList b with
  | some (payload, []) =>
    match rlp.SplitList payload with
    | some (p1, r1) =>
      match (rlp.splitStrings p1).bind toAddresses, rlp.SplitString r1 with
      | some fullnodes, some (sealBytes, r2) =>
        match rlp.SplitList r2 with
        | some (p3, []) =>
          match rlp.splitStrings p3 with
          | some committed => some { Fullnodes := fullnodes, Seal := sealBytes, CommittedSeal := committed }
          | none => none
        | _ => none
      | _, _ => none
    | none => none
  | _ => none

section Codec

variable (SportExtraVanity SportExtraSeal : Nat)

/-- Modelled from the spec: `types.ExtractSportExtra` (package `types`, not among the
sources), the spec's `decode`: it fails if the extra-data is shorter than the vanity, if the
remainder does not deserialise into the three-field structure, or if a committed seal has a
length other than the seal length. The header is not changed. -/
def ExtractSportExtra (h : Header) : Except Error SportExtra :=
  if h.Extra.length < SportExtraVanity then .error .FormatError
  else
    match SportExtra.DecodeRLP (h.Extra.drop SportExtraVanity) with
    | none => .error .FormatError
    | some ist =>
      if ist.CommittedSeal.all (fun s => decide (s.length = SportExtraSeal)) then .ok ist
      else .error .FormatError

/-- Modelled from the spec: `prepareExtra` (the engine file is not among the sources), the
spec's `encode_with_validators`: the vanity of the header, left-padded with zero bytes and
truncated to the vanity length, followed by the encoding of the payload that keeps the seal
and the committed seals the header decodes to (empty ones when it holds no decodable
payload, as in `TestPrepareExtra`) and has `vals` as its validator list. -/
def prepareExtra (header : Header) (vals : List Address) : Except Error Bytes :=
  let vanity :=
    (List.replicate (SportExtraVanity - header.Extra.length) (0 : UInt8) ++ header.Extra).take
      SportExtraVanity
  let ist : SportExtra :=
    match ExtractSportExtra SportExtraVanity SportExtraSeal header with
    | .ok old => { Fullnodes := vals, Seal := old.Seal, CommittedSeal := old.CommittedSeal }
    | .error _ => { Fullnodes := vals, Seal := [], CommittedSeal := [] }
  match rlp.EncodeToBytes ist with
  | .error err => .error err
  | .ok payload => .ok (vanity ++ payload)

/-- Modelled from the spec: `writeSeal` (the engine file is not among the sources), the
spec's `write_seal`: it fails if the seal has not the seal length; otherwise the payload of
the header gets `seal` as its proposer seal, all other fields kept. Go mutates the header
in place: the header after the call is returned next to the error. -/
def writeSeal (h : Header) (seal' : Bytes) : Header × Option Error :=
  if seal'.length ≠ SportExtraSeal then (h, some .errInvalidSignature)
  else
    match ExtractSportExtra SportExtraVanity SportExtraSeal h with
    | .error err => (h, some err)
    | .ok sportExtra =>
      match rlp.EncodeToBytes { sportExtra with Seal := seal' } with
      | .error err => (h, some err)
      | .ok payload => ({ h with Extra := h.Extra.take SportExtraVanity ++ payload }, none)

/-- Modelled from the spec: `writeCommittedSeals` (the engine file is not among the
sources), the spec's `write_committed_seals`: it fails if any of the seals has not the seal
length; otherwise the committed-seal list of the payload is replaced by `committedSeals`. -/
def writeCommittedSeals (h : Header) (committedSeals : List Bytes) : Header × Option Error :=
  if committedSeals.any (fun seal' => decide (seal'.length ≠ SportExtraSeal)) then
    (h, some .errInvalidCommittedSeals)
  else
    match ExtractSportExtra SportExtraVanity SportExtraSeal h with
    | .error err => (h, some err)
    | .ok sportExtra =>
      match rlp.EncodeToBytes { sportExtra with CommittedSeal := committedSeals } with
      | .error err => (h, some err)
      | .ok payload => ({ h with Extra := h.Extra.take SportExtraVanity ++ payload }, none)

/-- Go `EncodeExtraDataFromFullnodes` (`backend_engine_test.go`). -/
def EncodeExtraDataFromFullnodes (vanity : String) (fullnodes : List Address) :
    Except Error String :=
  match hexutil.Decode vanity with
  | .error err => .error err
  | .ok newVanity =>
    let newVanity :=
      if newVanity.length < SportExtraVanity then
        newVanity ++ List.replicate (SportExtraVanity - newVanity.length) (0x00 : UInt8)
      else newVanity
    let newVanity := newVanity.take SportExtraVanity
    let ist : SportExtra :=
      { Fullnodes := fullnodes, Seal := List.replicate SportExtraSeal 0, CommittedSeal := [] }
    match rlp.EncodeToBytes ist with
    | .error err => .error err
    | .ok payload => .ok ("0x" ++ Bytes2Hex (newVanity ++ payload))

end Codec

/-! ## `hashicorp/golang-lru` -/

namespace simplelru

/-- Go `simplelru.LRU`: the capacity and the eviction list, most recently used entry
first. Keys are unique in Go (the list is indexed by a map); the operations below keep
them so. -/
structure LRU (κ ν : Type) where
  size : Nat
  evictList : List (κ × ν)
  deriving DecidableEq

variable {κ ν : Type} [DecidableEq κ]

/-- Go `simplelru.NewLRU`: an error (here `none`) unless the size is positive. -/
def NewLRU (size : Nat) : Option (LRU κ ν) :=
  if size = 0 then none else some { size := size, evictList := [] }

/-- Go `LRU.Len`. -/
def LRU.Len (c : LRU κ ν) : Nat := c.evictList.length

/-- Go `LRU.Contains`: no effect on recency. -/
def LRU.Contains (c : LRU κ ν) (key : κ) : Bool := c.evictList.any fun e => decide (e.1 = key)

/-- Go `LRU.Peek`: the value of `key`, no effect on recency. -/
def LRU.Peek (c : LRU κ ν) (key : κ) : Option ν :=
  (c.evictList.find? fun e => decide (e.1 = key)).map Prod.snd

/-- Go `LRU.Remove`. -/
def LRU.Remove (c : LRU κ ν) (key : κ) : LRU κ ν :=
  { c with evictList := c.evictList.filter fun e => decide (e.1 ≠ key) }

/-- Go `LRU.RemoveOldest`: drops the entry at the back and returns its key. -/
def LRU.RemoveOldest (c : LRU κ ν) : Option κ × LRU κ ν :=
  match c.evictList.getLast? with
  | none => (none, c)
  | some e => (some e.1, { c with evictList := c.evictList.dropLast })

/-- Go `LRU.Add`: an existing entry moves to the front with the new value; a new entry is
pushed at the front and the oldest one is evicted when the capacity is exceeded. -/
def LRU.Add (c : LRU κ ν) (key : κ) (value : ν) : LRU κ ν :=
  if c.Contains key then
    { c with evictList := (key, value) :: c.evictList.filter fun e => decide (e.1 ≠ key) }
  else
    let c1 : LRU κ ν := { c with evictList := (key, value) :: c.evictList }
    if c1.Len > c1.size then c1.RemoveOldest.2 else c1

/-- Go `LRU.Get`: the value of `key`, whose entry moves to the front. -/
def LRU.Get (c : LRU κ ν) (key : κ) : Option ν × LRU κ ν :=
  match c.Peek key with
  | some v =>
    (some v, { c with evictList := (key, v) :: c.evictList.filter fun e => decide (e.1 ≠ key) })
  | none => (none, c)

/-- A write through the pointer stored under `key`: the value changes where it is, the
order of the entries does not. -/
def LRU.update (c : LRU κ ν) (key : κ) (f : ν → ν) : LRU κ ν :=
  { c with evictList := c.evictList.map fun e => if e.1 = key then (e.1, f e.2) else e }

end simplelru

namespace lru

open simplelru

/-- Go `lru.ARCCache`: `t1` holds the recent entries, `t2` the frequent ones, `b1` and `b2`
the keys lately evicted from `t1` and `t2`, and `p` is the target size of `t1`. -/
structure ARCCache (κ ν : Type) where
  size : Nat
  p : Nat
  t1 : LRU κ ν
  b1 : LRU κ Unit
  t2 : LRU κ ν
  b2 : LRU κ Unit
  deriving DecidableEq

variable {κ ν : Type} [DecidableEq κ]

/-- Go `lru.NewARC`: an error (here `none`, a nil cache) unless the size is positive. -/
def NewARC (size : Nat) : Option (ARCCache κ ν) :=
  match (NewLRU size : Option (LRU κ Unit)), (NewLRU size : Option (LRU κ Unit)),
    (NewLRU size : Option (LRU κ ν)), (NewLRU size : Option (LRU κ ν)) with
  | some b1, some b2, some t1, some t2 =>
    some { size := size, p := 0, t1 := t1, b1 := b1, t2 := t2, b2 := b2 }
  | _, _, _, _ => none

/-- Go `ARCCache.replace`: moves the oldest entry of `t1` or of `t2` to its ghost list. -/
def ARCCache.replace (c : ARCCache κ ν) (b2ContainsKey : Bool) : ARCCache κ ν :=
  let t1Len := c.t1.Len
  if t1Len > 0 ∧ (t1Len > c.p ∨ (t1Len = c.p ∧ b2ContainsKey = true)) then
    match c.t1.RemoveOldest with
    | (some k, t1) => { c with t1 := t1, b1 := c.b1.Add k () }
    | (none, t1) => { c with t1 := t1 }
  else
    match c.t2.RemoveOldest with
    | (some k, t2) => { c with t2 := t2, b2 := c.b2.Add k () }
    | (none, t2) => { c with t2 := t2 }

/-- Go `ARCCache.Get`: a hit in `t1` promotes the entry to `t2`. -/
def ARCCache.Get (c : ARCCache κ ν) (key : κ) : Option ν × ARCCache κ ν :=
  match c.t1.Peek key with
  | some val => (some val, { c with t1 := c.t1.Remove key, t2 := c.t2.Add key val })
  | none =>
    match c.t2.Get key with
    | (some val, t2) => (some val, { c with t2 := t2 })
    | (none, _) => (none, c)

/-- Go `ARCCache.Add`. -/
def ARCCache.Add (c : ARCCache κ ν) (key : κ) (value : ν) : ARCCache κ ν :=
  if c.t1.Contains key then
    { c with t1 := c.t1.Remove key, t2 := c.t2.Add key value }
  else if c.t2.Contains key then
    { c with t2 := c.t2.Add key value }
  else if c.b1.Contains key then
    let delta := if c.b2.Len > c.b1.Len then c.b2.Len / c.b1.Len else 1
    let c1 : ARCCache κ ν := { c with p := if c.p + delta ≥ c.size then c.size else c.p + delta }
    let c2 := if c1.t1.Len + c1.t2.Len ≥ c1.size then c1.replace false else c1
    { c2 with b1 := c2.b1.Remove key, t2 := c2.t2.Add key value }
  else if c.b2.Contains key then
    let delta := if c.b1.Len > c.b2.Len then c.b1.Len / c.b2.Len else 1
    let c1 : ARCCache κ ν := { c with p := if delta ≥ c.p then 0 else c.p - delta }
    let c2 := if c1.t1.Len + c1.t2.Len ≥ c1.size then c1.replace true else c1
    { c2 with b2 := c2.b2.Remove key, t2 := c2.t2.Add key value }
  else
    let c1 := if c.t1.Len + c.t2.Len ≥ c.size then c.replace false else c
    let c2 := if c1.b1.Len > c1.size - c1.p then { c1 with b1 := c1.b1.RemoveOldest.2 } else c1
    let c3 := if c2.b2.Len > c2.p then { c2 with b2 := c2.b2.RemoveOldest.2 } else c2
    { c3 with t1 := c3.t1.Add key value }

/-- Go `ARCCache.Contains`. -/
def ARCCache.Contains (c : ARCCache κ ν) (key : κ) : Bool :=
  c.t1.Contains key || c.t2.Contains key

/-- Go `ARCCache.Peek`. -/
def ARCCache.Peek (c : ARCCache κ ν) (key : κ) : Option ν :=
  match c.t1.Peek key with
  | some val => some val
  | none => c.t2.Peek key

/-- Go `ARCCache.Len`. -/
def ARCCache.Len (c : ARCCache κ ν) : Nat := c.t1.Len + c.t2.Len

/-- A write through the pointer stored under `key` (ghost lists hold no values). -/
def ARCCache.update (c : ARCCache κ ν) (key : κ) (f : ν → ν) : ARCCache κ ν :=
  { c with t1 := c.t1.update key f, t2 := c.t2.update key f }

/-- What `NewARC` sets up and every operation keeps: a positive capacity, shared by the
four lists. -/
def ARCCache.sized (c : ARCCache κ ν) : Prop :=
  0 < c.size ∧ c.t1.size = c.size ∧ c.t2.size = c.size ∧ c.b1.size = c.size ∧
    c.b2.size = c.size

instance (c : ARCCache κ ν) : Decidable c.sized := by
  unfold ARCCache.sized
  infer_instance

/-- The capacities of `c1` are those of `c`. -/
def sameSizes (c c1 : ARCCache κ ν) : Prop :=
  c1.size = c.size ∧ c1.t1.size = c.t1.size ∧ c1.t2.size = c.t2.size ∧
    c1.b1.size = c.b1.size ∧ c1.b2.size = c.b2.size

end lru

/-! ## `backend.HandleMsg` and `backend.NewChainHead` -/

/-- Go `p2p.Msg`, as one delivery of a message: its code, its size and the bytes its
payload reader yields. -/
structure Msg where
  Code : Nat
  Size : Nat
  Payload : Bytes
  deriving DecidableEq

/-- The events of package `sport` that the handlers post. -/
inductive Event where
  | MessageEvent (Payload : Bytes)
  | FinalCommittedEvent
  deriving DecidableEq

/-- The fields of Go `backend` that the handlers use. `posted` lists, oldest first, the
events handed to `smilobftEventMux.Post` by the goroutines the handlers start; the locks
are left out (one call at a time). -/
structure backend (Hash : Type) where
  coreStarted : Bool
  recentMessages : lru.ARCCache Address (lru.ARCCache Hash Bool)
  knownMessages : lru.ARCCache Hash Bool
  posted : List Event

section Handler

variable {Hash : Type} [DecidableEq Hash]

/-- Declarations the handler file uses and the sources do not hold: the message code
`smilobftMsg`, the capacity `inmemoryMessages`, `p2p.Msg.Decode` into a byte slice
(`none` for an error) and `types.RLPHash`. -/
structure Decls (Hash : Type) where
  smilobftMsg : Nat
  inmemoryMessages : Nat
  Decode : Msg → Option Bytes
  RLPHash : Bytes → Hash

/-- Go `backend.HandleMsg`. The result is `none` when the call panics (`m.Add` on the nil
cache that a failed `NewARC` leaves). -/
def HandleMsg (D : Decls Hash) (sb : backend Hash) (addr : Address) (msg : Msg) :
    Option ((Bool × Option Error) × backend Hash) :=
  if msg.Code = D.smilobftMsg then
    if !sb.coreStarted then some ((true, some .ErrStoppedEngine), sb)
    else
      match D.Decode msg with
      | none => some ((true, some .errDecodeFailed), sb)
      | some data =>
        let hash := D.RLPHash data
        -- Mark peer's message
        let marked : Option (lru.ARCCache Address (lru.ARCCache Hash Bool)) :=
          match sb.recentMessages.Get addr with
          | (some _, recent) => some recent
          | (none, recent) =>
            match (lru.NewARC D.inmemoryMessages : Option (lru.ARCCache Hash Bool)) with
            | some m => some (recent.Add addr m)
            | none => none
        match marked with
        | none => none
        | some recent =>
          let recent := recent.update addr fun m => m.Add hash true
          -- Mark self known message
          match sb.knownMessages.Get hash with
          | (some _, known) =>
            some ((true, none), { sb with recentMessages := recent, knownMessages := known })
          | (none, known) =>
            some ((true, none),
              { sb with
                recentMessages := recent
                knownMessages := known.Add hash true
                posted := sb.posted ++ [Event.MessageEvent data] })
  else some ((false, none), sb)

/-- Go `backend.NewChainHead`. -/
def NewChainHead (sb : backend Hash) : Option Error × backend Hash :=
  if !sb.coreStarted then (some .ErrStoppedEngine, sb)
  else (none, { sb with posted := sb.posted ++ [Event.FinalCommittedEvent] })

end Handler

/-! ## Example inputs -/

/-- The first validator of `TestPrepareExtra`. -/
def exampleAddress : Address :=
  ⟨[0x44, 0xad, 0xd0, 0xec, 0x31, 0x0f, 0x11, 0x5a, 0x0e, 0x60, 0x3b, 0x2d, 0x7d, 0xb9, 0xf0,
    0x67, 0x77, 0x8e, 0xaf, 0x8a], by decide⟩

/-- The second validator of `TestPrepareExtra`. -/
def exampleAddress2 : Address :=
  ⟨[0x29, 0x4f, 0xc7, 0xe8, 0xf2, 0x2b, 0x3b, 0xcd, 0xcf, 0x95, 0x5d, 0xd7, 0xff, 0x3b, 0xa2,
    0xed, 0x83, 0x3f, 0x82, 0x12], by decide⟩

/-- A payload with one validator, a three-byte seal and one three-byte committed seal. -/
def exampleExtra : SportExtra :=
  { Fullnodes := [exampleAddress], Seal := [9, 8, 7], CommittedSeal := [[4, 5, 6]] }

/-- A header whose extra-data is a two-byte vanity followed by `exampleExtra`. -/
def exampleHeader : Header :=
  { ParentHash := [], UncleHash := [], Difficulty := 1, Number := 1, Time := 0,
    Extra := [0xAA, 0xBB] ++ exampleExtra.EncodeRLP, MixDigest := [], Nonce := [] }

/-- Stand-ins for the declarations the handler file takes from other packages: message
code `0x11`, capacity 1024, a payload decoded as one RLP string, and the bytes themselves
as their hash. -/
def exampleDecls : Decls Bytes :=
  { smilobftMsg := 0x11
    inmemoryMessages := 1024
    Decode := fun msg =>
      match rlp.SplitString msg.Payload with
      | some (data, _) => some data
      | none => none
    RLPHash := fun data => data }

/-- An empty ARC cache of the given capacity. -/
def emptyARC (κ ν : Type) (size : Nat) : lru.ARCCache κ ν :=
  { size := size, p := 0, t1 := ⟨size, []⟩, b1 := ⟨size, []⟩, t2 := ⟨size, []⟩, b2 := ⟨size, []⟩ }

/-- A backend whose core is started and whose caches are empty. -/
def exampleBackend : backend Bytes :=
  { coreStarted := true
    recentMessages := emptyARC Address (lru.ARCCache Bytes Bool) 40
    knownMessages := emptyARC Bytes Bool 1024
    posted := [] }

/-- A consensus message whose payload decodes to the bytes `01 02 03 04 05`. -/
def exampleMsg : Msg := { Code := 0x11, Size := 6, Payload := [0x85, 1, 2, 3, 4, 5] }

/-- The cache of a peer from which the message with hash `09` was seen. -/
def examplePeerCache : lru.ARCCache Bytes Bool :=
  { emptyARC Bytes Bool 1024 with t1 := ⟨1024, [([9], true)]⟩ }

/-- A started backend that has seen the message with hash `09` from `exampleAddress`. -/
def exampleBackend2 : backend Bytes :=
  { coreStarted := true
    recentMessages :=
      { emptyARC Address (lru.ARCCache Bytes Bool) 40 with
        t1 := ⟨40, [(exampleAddress, examplePeerCache)]⟩ }
    knownMessages := { emptyARC Bytes Bool 1024 with t1 := ⟨1024, [([9], true)]⟩ }
    posted := [Event.MessageEvent [9]] }

/-- Go `hexutil.MustDecode` (it panics on an error; the strings below decode). -/
def MustDecode (input : String) : Bytes :=
  match hexutil.Decode input with
  | .ok b => b
  | .error _ => []

/-- Go `common.BytesToAddress` on a slice of at most twenty bytes: left-padded with zero
bytes. -/
def BytesToAddress (b : Bytes) : Address :=
  if h : (List.replicate (AddressLength - b.length) (0 : UInt8) ++ b).length = AddressLength then
    ⟨List.replicate (AddressLength - b.length) 0 ++ b, h⟩
  else ⟨List.replicate AddressLength 0, List.length_replicate _ _⟩

/-- The validators of `TestPrepareExtra`, `TestWriteSeal` and `TestWriteCommittedSeals`. -/
def testFullnodes : List Address :=
  [BytesToAddress (MustDecode "0x44add0ec310f115a0e603b2d7db9f067778eaf8a"),
   BytesToAddress (MustDecode "0x294fc7e8f22b3bcdcf955dd7ff3ba2ed833f8212"),
   BytesToAddress (MustDecode "0x6beaaed781d2d2ab6350f5c4566a2c6eaac407a6"),
   BytesToAddress (MustDecode "0x8be76812f765c24641ec63dc2852b378aba2b440")]

/-- The encoded payload used by the three tests (`istRawData`). -/
def istRawData : Bytes :=
  MustDecode ("0xf858f8549444add0ec310f115a0e603b2d7db9f067778eaf8a94294fc7e8f22b3bcdcf955dd7ff" ++
    "3ba2ed833f8212946beaaed781d2d2ab6350f5c4566a2c6eaac407a6948be76812f765c24641ec63dc2852b3" ++
    "78aba2b44080c0")

/-- A header of the tests: every field zero but `Extra`. -/
def testHeader (extra : Bytes) : Header :=
  { ParentHash := [], UncleHash := [], Difficulty := 0, Number := 0, Time := 0, Extra := extra,
    MixDigest := [], Nonce := [] }

/-- The seal of `TestWriteSeal`, for seal length 65: `01 02 03` and 62 zero bytes. -/
def expectedSeal : Bytes := [1, 2, 3] ++ List.replicate (65 - 3) 0

/-- The validators of `TestGenerateExtraData`. -/
def permissionedList : List Address :=
  [BytesToAddress (MustDecode "0xecf7e57d01d3d155e5fc33dbc7a58355685ba39c"),
   BytesToAddress (MustDecode "0xc0ce2fd65f71c6ce82d22db11fcf7ca43357f172"),
   BytesToAddress (MustDecode "0x7cb791430d2461268691bfba6e35d8a8c7ea2e63"),
   BytesToAddress (MustDecode "0xd54924701cd0d94d677d0a66dee75c978e175c74"),
   BytesToAddress (MustDecode "0x2f65a895741143953aabed3680177594818a5f9a"),
   BytesToAddress (MustDecode "0x497c8fe926bc88b61e736afe7aae2ea21414671f"),
   BytesToAddress (MustDecode "0x0fbc07ebdce2bfead66f1686d67f9ea5c759e433")]

/-- A message of another protocol (code `0x10`). -/
def exampleOtherMsg : Msg := { Code := 0x10, Size := 6, Payload := [0x85, 1, 2, 3, 4, 5] }

/-- A consensus message whose payload is empty and so does not decode. -/
def exampleBadMsg : Msg := { Code := 0x11, Size := 0, Payload := [] }

/-! ## Lemmas: `rlp` -/

namespace rlp

theorem toNat_ofNat_lt {n : Nat} (h : n < 256) : (UInt8.ofNat n).toNat = n := by
  simp [UInt8.toNat, UInt8.ofNat, Fin.ofNat, Nat.mod_eq_of_lt h]

theorem fromBE_snoc (b : Bytes) (c : UInt8) : fromBE (b ++ [c]) = fromBE b * 256 + c.toNat := by
  simp [fromBE, List.foldl_append]

theorem fromBE_putintAux (fuel : Nat) : ∀ i, i < 256 ^ fuel → fromBE (putintAux fuel i) = i := by
  induction fuel with
  | zero => intro i h; simp at h; subst h; rfl
  | succ n ih =>
    intro i h
    unfold putintAux
    split
    · rename_i hlt
      simp [fromBE, toNat_ofNat_lt hlt]
    · have hdiv : i / 256 < 256 ^ n := by
        rw [Nat.div_lt_iff_lt_mul (by decide)]
        rwa [Nat.pow_succ] at h
      rw [fromBE_snoc, ih _ hdiv, toNat_ofNat_lt (Nat.mod_lt _ (by decide))]
      omega

theorem putintAux_length_le (fuel : Nat) : ∀ i, (putintAux fuel i).length ≤ fuel := by
  induction fuel with
  | zero => intro i; simp [putintAux]
  | succ n ih =>
    intro i
    unfold putintAux
    split
    · simp
    · have := ih (i / 256)
      simp only [List.length_append, List.length_singleton]
      omega

theorem putintAux_length_pos (fuel : Nat) (i : Nat) : 0 < (putintAux (fuel + 1) i).length := by
  unfold putintAux
  split <;> simp

theorem putintAux_head (fuel : Nat) :
    ∀ i, 0 < i → i < 256 ^ fuel → ∃ c t, putintAux fuel i = c :: t ∧ c ≠ 0 := by
  induction fuel with
  | zero => intro i h0 h; simp at h; omega
  | succ n ih =>
    intro i h0 h
    unfold putintAux
    split
    · rename_i hlt
      refine ⟨UInt8.ofNat i, [], rfl, ?_⟩
      intro hc
      have := congrArg UInt8.toNat hc
      rw [toNat_ofNat_lt hlt] at this
      simp at this
      omega
    · have hdiv : i / 256 < 256 ^ n := by
        rw [Nat.div_lt_iff_lt_mul (by decide)]
        rwa [Nat.pow_succ] at h
      have hpos : 0 < i / 256 := Nat.div_pos (by omega) (by decide)
      obtain ⟨c, t, hct, hc⟩ := ih _ hpos hdiv
      exact ⟨c, t ++ [UInt8.ofNat (i % 256)], by rw [hct]; rfl, hc⟩

/-- Reading back a size written by `putint`. -/
theorem readSize_putint (n : Nat) (rest : Bytes) (h56 : 56 ≤ n) (h : n < 2 ^ 64) :
    readSize (putint n ++ rest) (putint n).length = some (n, rest) := by
  have hpow : n < 256 ^ 8 := by
    have : (256 : Nat) ^ 8 = 2 ^ 64 := by norm_num
    omega
  obtain ⟨c, t, hct, hc⟩ := putintAux_head 8 n (by omega) hpow
  have hval : fromBE (putint n) = n := fromBE_putintAux 8 n hpow
  have hhead : (putint n).head? ≠ some 0 := by
    unfold putint
    rw [hct]
    simpa using hc
  unfold readSize
  rw [List.take_left, List.drop_left, hval]
  simp [hhead]
  omega

theorem putint_length (n : Nat) : 1 ≤ (putint n).length ∧ (putint n).length ≤ 8 :=
  ⟨putintAux_length_pos 7 n, putintAux_length_le 8 n⟩

theorem takeContent_append (c rest : Bytes) : takeContent c.length (c ++ rest) = some (c, rest) := by
  simp [takeContent]

/-- A string header written by `puthead` and the content after it are split off again. -/
theorem SplitString_puthead (c rest : Bytes) (hlen : c.length < 2 ^ 64)
    (hcanon : ∀ x, c = [x] → 0x80 ≤ x.toNat) :
    SplitString (puthead 0x80 0xB7 c.length ++ c ++ rest) = some (c, rest) := by
  unfold puthead
  split
  · rename_i h56
    have htag : (UInt8.ofNat (0x80 + c.length)).toNat = 0x80 + c.length :=
      toNat_ofNat_lt (by omega)
    simp only [List.singleton_append, List.cons_append, List.nil_append, SplitString, htag]
    rw [if_neg (by omega), if_pos (by omega), if_neg, Nat.add_sub_cancel_left,
      takeContent_append]
    rintro ⟨h1, h2⟩
    have hone : c.length = 1 := by omega
    obtain ⟨x, rfl⟩ := List.length_eq_one.mp hone
    have := hcanon x rfl
    simp at h2
    omega
  · rename_i h56
    obtain ⟨h1, h8⟩ := putint_length c.length
    have htag : (UInt8.ofNat (0xB7 + (putint c.length).length)).toNat =
        0xB7 + (putint c.length).length := toNat_ofNat_lt (by omega)
    simp only [List.cons_append, List.append_assoc, SplitString, htag]
    rw [if_neg (by omega), if_neg (by omega), if_pos (by omega), Nat.add_sub_cancel_left,
      readSize_putint _ _ (by omega) hlen]
    exact takeContent_append c rest

/-- Decoding the encoding of a byte string. -/
theorem SplitString_encodeString (c rest : Bytes) (hlen : c.length < 2 ^ 64) :
    SplitString (encodeString c ++ rest) = some (c, rest) := by
  by_cases hsmall : ∃ x, c = [x] ∧ x.toNat < 0x80
  · obtain ⟨x, rfl, hx⟩ := hsmall
    simp [encodeString, SplitString, hx]
  · have hcanon : ∀ x, c = [x] → 0x80 ≤ x.toNat := by
      intro x hx
      by_contra hlt
      exact hsmall ⟨x, hx, by omega⟩
    have henc : encodeString c = puthead 0x80 0xB7 c.length ++ c := by
      unfold encodeString
      split
      · rename_i x
        have := hcanon x rfl
        rw [if_neg (by omega)]
        rfl
      · rfl
    rw [henc]
    exact SplitString_puthead c rest hlen hcanon

/-- Decoding the encoding of a list. -/
theorem SplitList_encodeList (p rest : Bytes) (hlen : p.length < 2 ^ 64) :
    SplitList (encodeList p ++ rest) = some (p, rest) := by
  unfold encodeList puthead
  split
  · rename_i h56
    have htag : (UInt8.ofNat (0xC0 + p.length)).toNat = 0xC0 + p.length :=
      toNat_ofNat_lt (by omega)
    simp only [List.singleton_append, List.cons_append, List.nil_append, SplitList, htag]
    rw [if_neg (by omega), if_pos (by omega), Nat.add_sub_cancel_left, takeContent_append]
  · rename_i h56
    obtain ⟨h1, h8⟩ := putint_length p.length
    have htag : (UInt8.ofNat (0xF7 + (putint p.length).length)).toNat =
        0xF7 + (putint p.length).length := toNat_ofNat_lt (by omega)
    simp only [List.cons_append, List.append_assoc, SplitList, htag]
    rw [if_neg (by omega), if_neg (by omega), Nat.add_sub_cancel_left,
      readSize_putint _ _ (by omega) hlen]
    exact takeContent_append p rest

theorem encodeString_length (c : Bytes) :
    0 < (encodeString c).length ∧ c.length ≤ (encodeString c).length := by
  unfold encodeString
  split
  · split <;> simp
  · simp only [List.length_append]
    unfold puthead
    split <;> simp

theorem encodeList_length (p : Bytes) : p.length ≤ (encodeList p).length := by
  simp [encodeList]

theorem splitStringsAux_flatten (l : List Bytes) :
    ∀ fuel, ((l.map encodeString).flatten).length ≤ fuel →
      ((l.map encodeString).flatten).length < 2 ^ 64 →
      splitStringsAux fuel ((l.map encodeString).flatten) = some l := by
  induction l with
  | nil => intro fuel _ _; cases fuel <;> rfl
  | cons c l ih =>
    intro fuel hfuel hlen
    obtain ⟨hpos, hle⟩ := encodeString_length c
    simp only [List.map_cons, List.flatten_cons, List.length_append] at hfuel hlen ⊢
    obtain ⟨x, xs, hx⟩ : ∃ x xs, encodeString c = x :: xs := by
      cases h : encodeString c with
      | nil => rw [h] at hpos; simp at hpos
      | cons x xs => exact ⟨x, xs, rfl⟩
    cases fuel with
    | zero => omega
    | succ n =>
      have hsplit := SplitString_encodeString c (l.map encodeString).flatten (by omega)
      rw [hx] at hsplit ⊢
      simp only [List.cons_append] at hsplit ⊢
      simp only [splitStringsAux, hsplit]
      rw [ih n (by omega) (by omega)]

/-- Decoding the payload of a list of byte strings. -/
theorem splitStrings_flatten (l : List Bytes)
    (hlen : ((l.map encodeString).flatten).length < 2 ^ 64) :
    splitStrings ((l.map encodeString).flatten) = some l :=
  splitStringsAux_flatten l _ (Nat.le_refl _) hlen

end rlp

/-! ## Lemmas: the extra-data codec -/

theorem toAddresses_map_val (l : List Address) : toAddresses (l.map Subtype.val) = some l := by
  induction l with
  | nil => rfl
  | cons a l ih =>
    have ha : toAddress a.val = some a := by
      unfold toAddress
      rw [dif_pos a.property]
      rfl
    simp only [List.map_cons, toAddresses, ha, ih]

/-- Decoding inverts encoding on every payload whose encoding has a length that fits a
`uint64`. -/
theorem DecodeRLP_EncodeRLP (ist : SportExtra) (hlen : ist.EncodeRLP.length < 2 ^ 64) :
    SportExtra.DecodeRLP ist.EncodeRLP = some ist := by
  obtain ⟨fullnodes, sealBytes, committed⟩ := ist
  simp only [SportExtra.EncodeRLP, rlp.encodeStrings] at hlen ⊢
  generalize hpa : ((fullnodes.map Subtype.val).map rlp.encodeString).flatten = pa at hlen ⊢
  generalize hpc : (committed.map rlp.encodeString).flatten = pc at hlen ⊢
  have h0 := rlp.encodeList_length
    (rlp.encodeList pa ++ rlp.encodeString sealBytes ++ rlp.encodeList pc)
  have h1 := rlp.encodeList_length pa
  have h2 := rlp.encodeList_length pc
  have h3 := (rlp.encodeString_length sealBytes).2
  simp only [List.length_append] at h0
  have e1 := rlp.SplitList_encodeList
    (rlp.encodeList pa ++ rlp.encodeString sealBytes ++ rlp.encodeList pc) [] (by
      simp only [List.length_append]; omega)
  rw [List.append_nil] at e1
  have e2 := rlp.SplitList_encodeList pa (rlp.encodeString sealBytes ++ rlp.encodeList pc)
    (by omega)
  have e3 : rlp.splitStrings pa = some (fullnodes.map Subtype.val) := by
    rw [← hpa]
    exact rlp.splitStrings_flatten _ (by rw [hpa]; omega)
  have e4 := rlp.SplitString_encodeString sealBytes (rlp.encodeList pc) (by omega)
  have e5 := rlp.SplitList_encodeList pc [] (by omega)
  rw [List.append_nil] at e5
  have e6 : rlp.splitStrings pc = some committed := by
    rw [← hpc]
    exact rlp.splitStrings_flatten _ (by rw [hpc]; omega)
  unfold SportExtra.DecodeRLP
  simp only [List.append_assoc] at e1 ⊢
  simp only [e1, e2, e3, Option.some_bind, toAddresses_map_val, e4, e5, e6]

section CodecLemmas

variable (SportExtraVanity SportExtraSeal : Nat)

/-- What a successful `ExtractSportExtra` says about the header. -/
theorem ExtractSportExtra_ok {h : Header} {ist : SportExtra}
    (hok : ExtractSportExtra SportExtraVanity SportExtraSeal h = .ok ist) :
    SportExtraVanity ≤ h.Extra.length ∧
      SportExtra.DecodeRLP (h.Extra.drop SportExtraVanity) = some ist ∧
      ∀ s ∈ ist.CommittedSeal, s.length = SportExtraSeal := by
  unfold ExtractSportExtra at hok
  split at hok
  · cases hok
  · rename_i hlen
    split at hok
    · cases hok
    · rename_i ist1 hdec
      split at hok
      · rename_i hall
        cases hok
        refine ⟨by omega, hdec, ?_⟩
        simpa using hall
      · cases hok

/-- Extra-data made of a vanity of the right length and an encoded payload decodes to that
payload. -/
theorem ExtractSportExtra_encoded (h : Header) (vanity : Bytes) (ist : SportExtra)
    (hv : vanity.length = SportExtraVanity)
    (hcs : ∀ s ∈ ist.CommittedSeal, s.length = SportExtraSeal)
    (hlen : (vanity ++ ist.EncodeRLP).length < 2 ^ 64) :
    ExtractSportExtra SportExtraVanity SportExtraSeal { h with Extra := vanity ++ ist.EncodeRLP } =
      .ok ist := by
  have hdrop : (vanity ++ ist.EncodeRLP).drop SportExtraVanity = ist.EncodeRLP := by
    rw [← hv, List.drop_left]
  have hdec : SportExtra.DecodeRLP ist.EncodeRLP = some ist :=
    DecodeRLP_EncodeRLP ist (by simp only [List.length_append] at hlen; omega)
  have hall : (ist.CommittedSeal.all fun s => decide (s.length = SportExtraSeal)) = true := by
    simpa using hcs
  unfold ExtractSportExtra
  simp only [hdrop, hdec, hall]
  rw [if_neg (by simp only [List.length_append]; omega)]
  rfl

end CodecLemmas

/-! ## Lemmas: `hexutil` -/

theorem fromHexChar_hextable :
    ∀ k : Fin 16, fromHexChar (hextable.getD k.val '0') = some k.val := by
  decide

theorem ofNat_toNat (b : UInt8) : UInt8.ofNat b.toNat = b := by
  cases b with
  | mk v => simp [UInt8.ofNat, UInt8.toNat]

theorem decodeHex_encodeByte (b : UInt8) (rest : List Char) :
    decodeHex (encodeByte b ++ rest) =
      match decodeHex rest with
      | .ok l => .ok (b :: l)
      | .error e => .error e := by
  have hlt : b.toNat < 256 := b.toNat_lt
  have h1 := fromHexChar_hextable ⟨b.toNat / 16, by omega⟩
  have h2 := fromHexChar_hextable ⟨b.toNat % 16, by omega⟩
  simp only at h1 h2
  have hb : UInt8.ofNat (b.toNat / 16 * 16 + b.toNat % 16) = b := by
    rw [Nat.div_add_mod' b.toNat 16, ofNat_toNat]
  simp only [encodeByte, List.cons_append, List.nil_append, decodeHex, h1, h2, hb,
    List.append_eq]

theorem decodeHex_flatten (d : Bytes) : decodeHex (d.map encodeByte).flatten = .ok d := by
  induction d with
  | nil => rfl
  | cons b d ih => simp only [List.map_cons, List.flatten_cons, decodeHex_encodeByte, ih]

/-- Go `hexutil.Decode` reads back what `"0x" + common.Bytes2Hex(d)` writes. -/
theorem Decode_Bytes2Hex (d : Bytes) : hexutil.Decode ("0x" ++ Bytes2Hex d) = .ok d := by
  have hdata : ("0x" ++ Bytes2Hex d).data = '0' :: 'x' :: (d.map encodeByte).flatten := by
    simp [Bytes2Hex, String.data_append]
  unfold hexutil.Decode
  rw [hdata]
  exact decodeHex_flatten d

/-! ## The extra-data codec: claims -/

section CodecClaims

variable (SportExtraVanity SportExtraSeal : Nat)

/-- C2 (seal round trip). If the extra-data of `h` decodes and `seal'` has exactly
`SportExtraSeal` bytes, `writeSeal` returns no error, and decoding the header it leaves
(whose extra-data, as every Go slice, is shorter than `2 ^ 64` bytes) succeeds with `seal'`
as the seal and the validators and committed seals that `h` held before. -/
theorem writeSeal_roundtrip (h : Header) (seal' : Bytes) (old : SportExtra)
    (hold : ExtractSportExtra SportExtraVanity SportExtraSeal h = .ok old)
    (hseal : seal'.length = SportExtraSeal) :
    (writeSeal SportExtraVanity SportExtraSeal h seal').2 = none ∧
      ((writeSeal SportExtraVanity SportExtraSeal h seal').1.Extra.length < 2 ^ 64 →
        ExtractSportExtra SportExtraVanity SportExtraSeal
            (writeSeal SportExtraVanity SportExtraSeal h seal').1 =
          .ok { Fullnodes := old.Fullnodes, Seal := seal', CommittedSeal := old.CommittedSeal }) := by
  obtain ⟨hlen, _, hcs⟩ := ExtractSportExtra_ok SportExtraVanity SportExtraSeal hold
  have hw : writeSeal SportExtraVanity SportExtraSeal h seal' =
      ({ h with Extra := h.Extra.take SportExtraVanity ++
          SportExtra.EncodeRLP { old with Seal := seal' } }, none) := by
    unfold writeSeal
    rw [if_neg (by simp [hseal]), hold]
    rfl
  rw [hw]
  refine ⟨rfl, fun hsz => ?_⟩
  exact ExtractSportExtra_encoded SportExtraVanity SportExtraSeal h _ { old with Seal := seal' }
    (by simp [List.length_take]; omega) hcs hsz

/-- C2, at the example header with vanity length 2 and seal length 3. -/
theorem writeSeal_roundtrip_witness :
    (writeSeal 2 3 exampleHeader [1, 2, 3]).2 = none ∧
      ExtractSportExtra 2 3 (writeSeal 2 3 exampleHeader [1, 2, 3]).1 =
        .ok { Fullnodes := [exampleAddress], Seal := [1, 2, 3], CommittedSeal := [[4, 5, 6]] } :=
  have key := writeSeal_roundtrip 2 3 exampleHeader [1, 2, 3] exampleExtra (by decide) (by decide)
  ⟨key.1, key.2 (by decide)⟩

/-- C3 (wrong-length seals). For every header and every seal whose length is not
`SportExtraSeal`, `writeSeal` returns `errInvalidSignature` and leaves the header as it
was. -/
theorem writeSeal_wrong_length (h : Header) (seal' : Bytes)
    (hseal : seal'.length ≠ SportExtraSeal) :
    writeSeal SportExtraVanity SportExtraSeal h seal' = (h, some .errInvalidSignature) := by
  unfold writeSeal
  rw [if_pos hseal]

/-- C3, at a seal one byte too long (seal length 3). -/
theorem writeSeal_wrong_length_witness :
    writeSeal 2 3 exampleHeader [1, 2, 3, 0] = (exampleHeader, some .errInvalidSignature) :=
  writeSeal_wrong_length 2 3 exampleHeader [1, 2, 3, 0] (by decide)

theorem prepareExtra_eq (header : Header) (vals : List Address) :
    prepareExtra SportExtraVanity SportExtraSeal header vals =
      .ok ((List.replicate (SportExtraVanity - header.Extra.length) (0 : UInt8) ++
            header.Extra).take SportExtraVanity ++
        SportExtra.EncodeRLP
          (match ExtractSportExtra SportExtraVanity SportExtraSeal header with
          | .ok old => { Fullnodes := vals, Seal := old.Seal, CommittedSeal := old.CommittedSeal }
          | .error _ => { Fullnodes := vals, Seal := [], CommittedSeal := [] })) := rfl

theorem prepareExtra_vanity_length (header : Header) :
    ((List.replicate (SportExtraVanity - header.Extra.length) (0 : UInt8) ++
      header.Extra).take SportExtraVanity).length = SportExtraVanity := by
  simp [List.length_take]
  omega

/-- C4 (validator-list round trip). For every header and every validator list,
`prepareExtra` returns bytes and no error, and a header with these bytes (fewer than
`2 ^ 64`, as in every Go slice) as extra-data decodes to a payload whose `Fullnodes` is the
given list. -/
theorem prepareExtra_roundtrip (h : Header) (vs : List Address) :
    ∃ payload, prepareExtra SportExtraVanity SportExtraSeal h vs = .ok payload ∧
      (payload.length < 2 ^ 64 → ∀ h1 : Header, ∃ ist,
        ExtractSportExtra SportExtraVanity SportExtraSeal { h1 with Extra := payload } = .ok ist ∧
          ist.Fullnodes = vs) := by
  refine ⟨_, prepareExtra_eq SportExtraVanity SportExtraSeal h vs, fun hsz h1 => ?_⟩
  have hv := prepareExtra_vanity_length SportExtraVanity h
  cases hold : ExtractSportExtra SportExtraVanity SportExtraSeal h with
  | error e =>
    rw [hold] at hsz
    refine ⟨{ Fullnodes := vs, Seal := [], CommittedSeal := [] }, ?_, rfl⟩
    exact ExtractSportExtra_encoded SportExtraVanity SportExtraSeal h1 _ _ hv (by simp) hsz
  | ok old =>
    rw [hold] at hsz
    obtain ⟨_, _, hcs⟩ := ExtractSportExtra_ok SportExtraVanity SportExtraSeal hold
    refine ⟨{ Fullnodes := vs, Seal := old.Seal, CommittedSeal := old.CommittedSeal }, ?_, rfl⟩
    exact ExtractSportExtra_encoded SportExtraVanity SportExtraSeal h1 _ _ hv hcs hsz

/-- C4, at the example header and a two-validator list (vanity length 2, seal length 3). -/
theorem prepareExtra_roundtrip_witness :
    ∃ payload, prepareExtra 2 3 exampleHeader [exampleAddress2, exampleAddress] = .ok payload ∧
      ∃ ist, ExtractSportExtra 2 3 { exampleHeader with Extra := payload } = .ok ist ∧
        ist.Fullnodes = [exampleAddress2, exampleAddress] :=
  match prepareExtra_roundtrip 2 3 exampleHeader [exampleAddress2, exampleAddress] with
  | ⟨payload, hp, hdec⟩ =>
    ⟨payload, hp, hdec (by
      rw [prepareExtra_eq] at hp
      cases hp
      decide) exampleHeader⟩

/-- C5 (committed seals are replaced). If the extra-data of `h` decodes and every element
of `seals` has exactly `SportExtraSeal` bytes, `writeCommittedSeals` returns no error, and
decoding the header it leaves (extra-data shorter than `2 ^ 64` bytes) gives `seals` as
the committed seals, none of the earlier ones, with validators and seal unchanged. -/
theorem writeCommittedSeals_replaces (h : Header) (seals : List Bytes) (old : SportExtra)
    (hold : ExtractSportExtra SportExtraVanity SportExtraSeal h = .ok old)
    (hseals : ∀ s ∈ seals, s.length = SportExtraSeal) :
    (writeCommittedSeals SportExtraVanity SportExtraSeal h seals).2 = none ∧
      ((writeCommittedSeals SportExtraVanity SportExtraSeal h seals).1.Extra.length < 2 ^ 64 →
        ExtractSportExtra SportExtraVanity SportExtraSeal
            (writeCommittedSeals SportExtraVanity SportExtraSeal h seals).1 =
          .ok { Fullnodes := old.Fullnodes, Seal := old.Seal, CommittedSeal := seals }) := by
  obtain ⟨hlen, _, _⟩ := ExtractSportExtra_ok SportExtraVanity SportExtraSeal hold
  have hany : (seals.any fun s => decide (s.length ≠ SportExtraSeal)) = false := by
    rw [List.any_eq_false]
    intro s hs
    simpa using hseals s hs
  have hw : writeCommittedSeals SportExtraVanity SportExtraSeal h seals =
      ({ h with Extra := h.Extra.take SportExtraVanity ++
          SportExtra.EncodeRLP { old with CommittedSeal := seals } }, none) := by
    unfold writeCommittedSeals
    rw [hany, hold]
    rfl
  rw [hw]
  refine ⟨rfl, fun hsz => ?_⟩
  exact ExtractSportExtra_encoded SportExtraVanity SportExtraSeal h _
    { old with CommittedSeal := seals } (by simp [List.length_take]; omega) hseals hsz

/-- C5, at the example header, whose one committed seal is replaced by two others. -/
theorem writeCommittedSeals_replaces_witness :
    (writeCommittedSeals 2 3 exampleHeader [[1, 1, 1], [2, 2, 2]]).2 = none ∧
      ExtractSportExtra 2 3 (writeCommittedSeals 2 3 exampleHeader [[1, 1, 1], [2, 2, 2]]).1 =
        .ok { Fullnodes := [exampleAddress], Seal := [9, 8, 7],
              CommittedSeal := [[1, 1, 1], [2, 2, 2]] } :=
  have key := writeCommittedSeals_replaces 2 3 exampleHeader [[1, 1, 1], [2, 2, 2]] exampleExtra
    (by decide) (by decide)
  ⟨key.1, key.2 (by decide)⟩

/-- C6 (one bad entry rejects the list). For every header and every list of seals with at
least one element whose length is not `SportExtraSeal`, `writeCommittedSeals` returns
`errInvalidCommittedSeals` and leaves the header as it was. -/
theorem writeCommittedSeals_rejects (h : Header) (seals : List Bytes)
    (hbad : ∃ s ∈ seals, s.length ≠ SportExtraSeal) :
    writeCommittedSeals SportExtraVanity SportExtraSeal h seals =
      (h, some .errInvalidCommittedSeals) := by
  have hany : (seals.any fun s => decide (s.length ≠ SportExtraSeal)) = true := by
    rw [List.any_eq_true]
    obtain ⟨s, hs, hne⟩ := hbad
    exact ⟨s, hs, by simpa using hne⟩
  unfold writeCommittedSeals
  rw [hany]
  rfl

/-- C6, at a list whose second seal is one byte too long. -/
theorem writeCommittedSeals_rejects_witness :
    writeCommittedSeals 2 3 exampleHeader [[1, 1, 1], [2, 2, 2, 0]] =
      (exampleHeader, some .errInvalidCommittedSeals) :=
  writeCommittedSeals_rejects 2 3 exampleHeader [[1, 1, 1], [2, 2, 2, 0]]
    ⟨[2, 2, 2, 0], by decide, by decide⟩

/-- C7 (vanity and seal fields are kept). If the extra-data of `h` decodes, the bytes
`prepareExtra` returns begin with the first `SportExtraVanity` bytes of `h.Extra`, and a
header with these bytes (fewer than `2 ^ 64`) as extra-data decodes to the payload with the
seal and committed seals of `h` and the new validator list. -/
theorem prepareExtra_keeps (h : Header) (vs : List Address) (old : SportExtra)
    (hold : ExtractSportExtra SportExtraVanity SportExtraSeal h = .ok old) :
    ∃ payload, prepareExtra SportExtraVanity SportExtraSeal h vs = .ok payload ∧
      payload.take SportExtraVanity = h.Extra.take SportExtraVanity ∧
      (payload.length < 2 ^ 64 → ∀ h1 : Header,
        ExtractSportExtra SportExtraVanity SportExtraSeal { h1 with Extra := payload } =
          .ok { Fullnodes := vs, Seal := old.Seal, CommittedSeal := old.CommittedSeal }) := by
  obtain ⟨hlen, _, hcs⟩ := ExtractSportExtra_ok SportExtraVanity SportExtraSeal hold
  have hv := prepareExtra_vanity_length SportExtraVanity h
  have hvan : (List.replicate (SportExtraVanity - h.Extra.length) (0 : UInt8) ++
      h.Extra).take SportExtraVanity = h.Extra.take SportExtraVanity := by
    rw [Nat.sub_eq_zero_of_le hlen]
    rfl
  refine ⟨_, prepareExtra_eq SportExtraVanity SportExtraSeal h vs, ?_, fun hsz h1 => ?_⟩
  · rw [hvan]
    have hl : (h.Extra.take SportExtraVanity).length = SportExtraVanity := by
      simp [List.length_take]; omega
    rw [List.take_append_of_le_length (by omega), List.take_take, Nat.min_self]
  · rw [hold] at hsz ⊢
    exact ExtractSportExtra_encoded SportExtraVanity SportExtraSeal h1 _ _ hv hcs hsz

/-- C7, at the example header (vanity `AA BB`, seal `09 08 07`, one committed seal). -/
theorem prepareExtra_keeps_witness :
    ∃ payload, prepareExtra 2 3 exampleHeader [exampleAddress2] = .ok payload ∧
      payload.take 2 = [0xAA, 0xBB] ∧
      ExtractSportExtra 2 3 { exampleHeader with Extra := payload } =
        .ok { Fullnodes := [exampleAddress2], Seal := [9, 8, 7], CommittedSeal := [[4, 5, 6]] } :=
  match prepareExtra_keeps 2 3 exampleHeader [exampleAddress2] exampleExtra (by decide) with
  | ⟨payload, hp, hvan, hdec⟩ =>
    ⟨payload, hp, hvan, hdec (by
      rw [prepareExtra_eq] at hp
      cases hp
      decide) exampleHeader⟩

/-- C8 (vanity padding). If the vanity string hex-decodes to `v`, the call succeeds
whatever the length of `v`; the string it returns is `0x` followed by the hex form of
`nv ++ payload`, and hex-decodes to these bytes, where `nv` has exactly `SportExtraVanity`
bytes, is `v` followed by zero bytes when `v` is not longer and the first
`SportExtraVanity` bytes of `v` when it is not shorter, and `payload` is the encoding of
the given validators, a seal of `SportExtraSeal` zero bytes and no committed seal. -/
theorem EncodeExtraDataFromFullnodes_vanity (vanity : String) (v : Bytes)
    (fullnodes : List Address) (hv : hexutil.Decode vanity = .ok v) :
    ∃ nv : Bytes, nv.length = SportExtraVanity ∧
      (v.length ≤ SportExtraVanity →
        nv = v ++ List.replicate (SportExtraVanity - v.length) (0 : UInt8)) ∧
      (SportExtraVanity ≤ v.length → nv = v.take SportExtraVanity) ∧
      EncodeExtraDataFromFullnodes SportExtraVanity SportExtraSeal vanity fullnodes =
        .ok ("0x" ++ Bytes2Hex (nv ++ SportExtra.EncodeRLP
          { Fullnodes := fullnodes, Seal := List.replicate SportExtraSeal 0,
            CommittedSeal := [] })) ∧
      hexutil.Decode ("0x" ++ Bytes2Hex (nv ++ SportExtra.EncodeRLP
          { Fullnodes := fullnodes, Seal := List.replicate SportExtraSeal 0,
            CommittedSeal := [] })) =
        .ok (nv ++ SportExtra.EncodeRLP
          { Fullnodes := fullnodes, Seal := List.replicate SportExtraSeal 0,
            CommittedSeal := [] }) := by
  refine ⟨(if v.length < SportExtraVanity then
      v ++ List.replicate (SportExtraVanity - v.length) (0x00 : UInt8) else v).take
        SportExtraVanity, ?_, ?_, ?_, ?_, Decode_Bytes2Hex _⟩
  · split <;> simp [List.length_take] <;> omega
  · intro hle
    split
    · rw [List.take_of_length_le (by simp; omega)]
    · have hEq : v.length = SportExtraVanity := by omega
      rw [List.take_of_length_le (by omega), hEq]
      simp
  · intro hle
    rw [if_neg (by omega)]
  · unfold EncodeExtraDataFromFullnodes
    rw [hv]
    rfl

/-- C8, at the short vanity of `TestGenerateExtraData` and at a long one (vanity length 2,
seal length 3). -/
theorem EncodeExtraDataFromFullnodes_vanity_witness :
    (∃ nv : Bytes, nv = [0x00, 0x00] ∧
      EncodeExtraDataFromFullnodes 2 3 "0x00" [exampleAddress] =
        .ok ("0x" ++ Bytes2Hex (nv ++ SportExtra.EncodeRLP
          { Fullnodes := [exampleAddress], Seal := [0, 0, 0], CommittedSeal := [] }))) ∧
    hexutil.Decode "0x00" = .ok [0x00] :=
  match EncodeExtraDataFromFullnodes_vanity 2 3 "0x00" [0x00] [exampleAddress] (by decide) with
  | ⟨nv, _, hshort, _, hres, _⟩ => ⟨⟨nv, hshort (by decide), hres⟩, by decide⟩

end CodecClaims

/-! ## The engine tests, replayed on the model (vanity length 32, seal length 65) -/

set_option maxRecDepth 200000 in
/-- Test `TestPrepareExtra`: both calls return the vanity followed by `istRawData`. -/
theorem TestPrepareExtra_replay :
    prepareExtra 32 65 (testHeader (List.replicate 32 0)) testFullnodes =
        .ok (List.replicate 32 0 ++ istRawData) ∧
      prepareExtra 32 65 (testHeader (List.replicate 32 0 ++ List.replicate 15 0)) testFullnodes =
        .ok (List.replicate 32 0 ++ istRawData) := by
  decide

set_option maxRecDepth 200000 in
/-- Test `TestWriteSeal`: the normal case, the decoded payload, and the seal one byte too
long. -/
theorem TestWriteSeal_replay :
    (writeSeal 32 65 (testHeader (List.replicate 32 0 ++ istRawData)) expectedSeal).2 = none ∧
      ExtractSportExtra 32 65
          (writeSeal 32 65 (testHeader (List.replicate 32 0 ++ istRawData)) expectedSeal).1 =
        .ok { Fullnodes := testFullnodes, Seal := expectedSeal, CommittedSeal := [] } ∧
      (writeSeal 32 65
          (writeSeal 32 65 (testHeader (List.replicate 32 0 ++ istRawData)) expectedSeal).1
          (expectedSeal ++ [0])).2 = some .errInvalidSignature := by
  decide

set_option maxRecDepth 200000 in
/-- Test `TestGenerateExtraData`: the call succeeds and its output, hex-decoded into the
extra-data of a header, decodes to the seven validators. -/
theorem TestGenerateExtraData_replay :
    ∃ extraData, EncodeExtraDataFromFullnodes 32 65 "0x00" permissionedList = .ok extraData ∧
      ExtractSportExtra 32 65 (testHeader (MustDecode extraData)) =
        .ok { Fullnodes := permissionedList, Seal := List.replicate 65 0, CommittedSeal := [] } := by
  refine ⟨_, rfl, ?_⟩
  decide

set_option maxRecDepth 200000 in
/-- Test `TestWriteCommittedSeals`: the normal case, the decoded payload, and the committed seal
one byte too long. -/
theorem TestWriteCommittedSeals_replay :
    (writeCommittedSeals 32 65 (testHeader (List.replicate 32 0 ++ istRawData))
        [expectedSeal]).2 = none ∧
      ExtractSportExtra 32 65
          (writeCommittedSeals 32 65 (testHeader (List.replicate 32 0 ++ istRawData))
            [expectedSeal]).1 =
        .ok { Fullnodes := testFullnodes, Seal := [], CommittedSeal := [expectedSeal] } ∧
      (writeCommittedSeals 32 65
          (writeCommittedSeals 32 65 (testHeader (List.replicate 32 0 ++ istRawData))
            [expectedSeal]).1
          [expectedSeal ++ [0]]).2 = some .errInvalidCommittedSeals := by
  decide

/-! ## Lemmas: `simplelru` -/

namespace simplelru

variable {κ ν : Type} [DecidableEq κ]

theorem find_filter_self (l : List (κ × ν)) (k : κ) :
    (l.filter fun e => decide (e.1 ≠ k)).find? (fun e => decide (e.1 = k)) = none := by
  rw [List.find?_eq_none]
  intro e he
  have := (List.mem_filter.mp he).2
  simpa using this

theorem find_filter_other (l : List (κ × ν)) {k k1 : κ} (hne : k1 ≠ k) :
    (l.filter fun e => decide (e.1 ≠ k)).find? (fun e => decide (e.1 = k1)) =
      l.find? (fun e => decide (e.1 = k1)) := by
  induction l with
  | nil => rfl
  | cons e l ih =>
    rw [List.filter_cons]
    by_cases hk : e.1 = k
    · have hk1 : ¬ e.1 = k1 := fun h => hne (h ▸ hk)
      rw [if_neg (by simpa using hk), List.find?_cons_of_neg _ (by simpa using hk1), ih]
    · rw [if_pos (by simpa using hk)]
      by_cases hk1 : e.1 = k1
      · rw [List.find?_cons_of_pos _ (by simpa using hk1),
          List.find?_cons_of_pos _ (by simpa using hk1)]
      · rw [List.find?_cons_of_neg _ (by simpa using hk1),
          List.find?_cons_of_neg _ (by simpa using hk1), ih]

theorem find_map_update (l : List (κ × ν)) (k : κ) (f : ν → ν) :
    ((l.map fun e => if e.1 = k then (e.1, f e.2) else e).find?
        (fun e => decide (e.1 = k))).map Prod.snd =
      ((l.find? fun e => decide (e.1 = k)).map Prod.snd).map f := by
  induction l with
  | nil => rfl
  | cons e l ih =>
    rw [List.map_cons]
    by_cases hk : e.1 = k
    · rw [if_pos hk, List.find?_cons_of_pos _ (by simpa using hk),
        List.find?_cons_of_pos _ (by simpa using hk)]
      rfl
    · rw [if_neg hk, List.find?_cons_of_neg _ (by simpa using hk),
        List.find?_cons_of_neg _ (by simpa using hk), ih]

theorem find_map_update_other (l : List (κ × ν)) {k k1 : κ} (hne : k1 ≠ k) (f : ν → ν) :
    ((l.map fun e => if e.1 = k then (e.1, f e.2) else e).find?
        (fun e => decide (e.1 = k1))).map Prod.snd =
      (l.find? fun e => decide (e.1 = k1)).map Prod.snd := by
  induction l with
  | nil => rfl
  | cons e l ih =>
    rw [List.map_cons]
    by_cases hk : e.1 = k
    · have hk1 : ¬ e.1 = k1 := fun h => hne (h ▸ hk)
      rw [if_pos hk, List.find?_cons_of_neg _ (by simpa using hk1),
        List.find?_cons_of_neg _ (by simpa using hk1), ih]
    · rw [if_neg hk]
      by_cases hk1 : e.1 = k1
      · rw [List.find?_cons_of_pos _ (by simpa using hk1),
          List.find?_cons_of_pos _ (by simpa using hk1)]
      · rw [List.find?_cons_of_neg _ (by simpa using hk1),
          List.find?_cons_of_neg _ (by simpa using hk1), ih]

theorem find_dropLast_none (l : List (κ × ν)) (k : κ)
    (h : l.find? (fun e => decide (e.1 = k)) = none) :
    l.dropLast.find? (fun e => decide (e.1 = k)) = none := by
  rw [List.find?_eq_none] at h ⊢
  intro e he
  exact h e (List.mem_of_mem_dropLast he)

theorem Contains_eq_isSome (c : LRU κ ν) (k : κ) : c.Contains k = (c.Peek k).isSome := by
  unfold LRU.Contains LRU.Peek
  induction c.evictList with
  | nil => rfl
  | cons e l ih =>
    by_cases hk : e.1 = k
    · simp [List.find?_cons, hk]
    · simp [List.find?_cons, hk, ih]

theorem Peek_eq_none {c : LRU κ ν} {k : κ} (h : c.Contains k = false) : c.Peek k = none := by
  rw [Contains_eq_isSome] at h
  cases hp : c.Peek k with
  | none => rfl
  | some v => rw [hp] at h; cases h

@[simp] theorem Remove_size (c : LRU κ ν) (k : κ) : (c.Remove k).size = c.size := rfl

@[simp] theorem update_size (c : LRU κ ν) (k : κ) (f : ν → ν) : (c.update k f).size = c.size :=
  rfl

omit [DecidableEq κ] in
@[simp] theorem RemoveOldest_size (c : LRU κ ν) : c.RemoveOldest.2.size = c.size := by
  unfold LRU.RemoveOldest
  split <;> rfl

@[simp] theorem Add_size (c : LRU κ ν) (k : κ) (v : ν) : (c.Add k v).size = c.size := by
  unfold LRU.Add
  split
  · rfl
  · simp only
    split
    · exact RemoveOldest_size _
    · rfl

@[simp] theorem Get_size (c : LRU κ ν) (k : κ) : (c.Get k).2.size = c.size := by
  unfold LRU.Get
  split <;> rfl

theorem Peek_Remove_self (c : LRU κ ν) (k : κ) : (c.Remove k).Peek k = none := by
  simp [LRU.Remove, LRU.Peek, find_filter_self]

theorem Peek_Remove_other (c : LRU κ ν) {k k1 : κ} (hne : k1 ≠ k) :
    (c.Remove k).Peek k1 = c.Peek k1 := by
  simp only [LRU.Remove, LRU.Peek, find_filter_other _ hne]

omit [DecidableEq κ] in
theorem RemoveOldest_evictList (c : LRU κ ν) :
    c.RemoveOldest.2.evictList = c.evictList.dropLast := by
  unfold LRU.RemoveOldest
  split
  · rename_i h
    simp only
    rw [List.getLast?_eq_none_iff] at h
    rw [h]
    rfl
  · rfl

theorem Peek_RemoveOldest_none (c : LRU κ ν) (k : κ) (h : c.Peek k = none) :
    c.RemoveOldest.2.Peek k = none := by
  unfold LRU.Peek at h ⊢
  rw [RemoveOldest_evictList]
  rw [Option.map_eq_none'] at h ⊢
  exact find_dropLast_none _ _ h

/-- The entry just added is found, with its value, whenever the capacity is positive. -/
theorem Peek_Add_self (c : LRU κ ν) (k : κ) (v : ν) (hs : 0 < c.size) :
    (c.Add k v).Peek k = some v := by
  unfold LRU.Add
  split
  · simp [LRU.Peek]
  · simp only
    split
    · rename_i hlen
      unfold LRU.Peek
      rw [RemoveOldest_evictList]
      simp only [LRU.Len, List.length_cons] at hlen
      cases hl : c.evictList with
      | nil => rw [hl] at hlen; simp at hlen; omega
      | cons e l => simp [List.dropLast]
    · simp [LRU.Peek]

theorem Get_of_Peek_none (c : LRU κ ν) (k : κ) (h : c.Peek k = none) : c.Get k = (none, c) := by
  unfold LRU.Get
  rw [h]

theorem Get_of_Peek_some (c : LRU κ ν) (k : κ) (v : ν) (h : c.Peek k = some v) :
    (c.Get k).1 = some v ∧ (c.Get k).2.Peek k = some v := by
  unfold LRU.Get
  rw [h]
  simp [LRU.Peek]

theorem Peek_update_self (c : LRU κ ν) (k : κ) (f : ν → ν) :
    (c.update k f).Peek k = (c.Peek k).map f :=
  find_map_update c.evictList k f

theorem Peek_update_other (c : LRU κ ν) {k k1 : κ} (hne : k1 ≠ k) (f : ν → ν) :
    (c.update k f).Peek k1 = c.Peek k1 :=
  find_map_update_other c.evictList hne f

/-- Adding a key leaves the other entries alone when there is room for one more. -/
theorem Peek_Add_other_of_room (c : LRU κ ν) (k : κ) (v : ν) {k1 : κ} (hne : k1 ≠ k)
    (hroom : c.Len < c.size) : (c.Add k v).Peek k1 = c.Peek k1 := by
  have hk : ¬ (k, v).1 = k1 := fun h => hne h.symm
  unfold LRU.Add
  split
  · unfold LRU.Peek
    simp only
    rw [List.find?_cons_of_neg _ (by simpa using hk), find_filter_other _ hne]
  · simp only
    rw [if_neg (by simp only [LRU.Len, List.length_cons] at hroom ⊢; omega)]
    unfold LRU.Peek
    simp only
    rw [List.find?_cons_of_neg _ (by simpa using hk)]

theorem Contains_iff (c : LRU κ ν) (x : κ) :
    c.Contains x = true ↔ ∃ e ∈ c.evictList, e.1 = x := by
  simp [LRU.Contains, List.any_eq_true]

theorem Contains_Remove_imp (c : LRU κ ν) (k x : κ) (h : (c.Remove k).Contains x = true) :
    c.Contains x = true := by
  rw [Contains_iff] at h ⊢
  obtain ⟨e, he, hx⟩ := h
  exact ⟨e, (List.mem_filter.mp he).1, hx⟩

theorem Contains_RemoveOldest_imp (c : LRU κ ν) (x : κ)
    (h : c.RemoveOldest.2.Contains x = true) : c.Contains x = true := by
  rw [Contains_iff] at h ⊢
  rw [RemoveOldest_evictList] at h
  obtain ⟨e, he, hx⟩ := h
  exact ⟨e, List.mem_of_mem_dropLast he, hx⟩

/-- The only key `Add` can bring into the list is the one it is given. -/
theorem Contains_Add_imp (c : LRU κ ν) (k : κ) (v : ν) (x : κ)
    (h : (c.Add k v).Contains x = true) : x = k ∨ c.Contains x = true := by
  rw [Contains_iff] at h
  rw [Contains_iff]
  obtain ⟨e, he, hx⟩ := h
  unfold LRU.Add at he
  split at he
  · simp only [List.mem_cons] at he
    rcases he with he | he
    · left
      rw [← hx, he]
    · exact Or.inr ⟨e, (List.mem_filter.mp he).1, hx⟩
  · simp only at he
    split at he
    · rw [RemoveOldest_evictList] at he
      have he1 := List.mem_of_mem_dropLast he
      simp only [List.mem_cons] at he1
      rcases he1 with he1 | he1
      · left
        rw [← hx, he1]
      · exact Or.inr ⟨e, he1, hx⟩
    · simp only [List.mem_cons] at he
      rcases he with he | he
      · left
        rw [← hx, he]
      · exact Or.inr ⟨e, he, hx⟩

/-- A hit moves the entry to the front and changes no lookup. -/
theorem Peek_Get (c : LRU κ ν) (k x : κ) : (c.Get k).2.Peek x = c.Peek x := by
  cases hp : c.Peek k with
  | none => rw [Get_of_Peek_none c k hp]
  | some v =>
    unfold LRU.Get
    rw [hp]
    by_cases hx : x = k
    · subst hx
      rw [hp]
      simp [LRU.Peek]
    · have hk : ¬ (k, v).1 = x := fun h => hx h.symm
      unfold LRU.Peek
      simp only
      rw [List.find?_cons_of_neg _ (by simpa using hk), find_filter_other _ hx]

theorem Len_pos_of_Peek {c : LRU κ ν} {k : κ} {v : ν} (h : c.Peek k = some v) : 0 < c.Len := by
  unfold LRU.Peek at h
  unfold LRU.Len
  cases hl : c.evictList with
  | nil => rw [hl] at h; cases h
  | cons e l => simp

end simplelru

/-! ## Lemmas: `lru.ARCCache` -/

namespace lru

open simplelru

variable {κ ν : Type} [DecidableEq κ]

omit [DecidableEq κ] in
theorem sized_of_sameSizes {c c1 : ARCCache κ ν} (h : sameSizes c c1) (hs : c.sized) :
    c1.sized := by
  obtain ⟨h0, h1, h2, h3, h4⟩ := h
  obtain ⟨s0, s1, s2, s3, s4⟩ := hs
  exact ⟨by omega, by omega, by omega, by omega, by omega⟩

theorem ARC_Contains_eq_isSome (c : ARCCache κ ν) (k : κ) : c.Contains k = (c.Peek k).isSome := by
  unfold ARCCache.Contains ARCCache.Peek
  rw [simplelru.Contains_eq_isSome, simplelru.Contains_eq_isSome]
  cases c.t1.Peek k <;> simp

theorem sameSizes_replace (c : ARCCache κ ν) (b : Bool) : sameSizes c (c.replace b) := by
  unfold ARCCache.replace
  simp only
  split
  · split
    · rename_i k t1 h
      have : t1 = c.t1.RemoveOldest.2 := by rw [h]
      subst this
      exact ⟨rfl, by simp, rfl, by simp, rfl⟩
    · rename_i t1 h
      have : t1 = c.t1.RemoveOldest.2 := by rw [h]
      subst this
      exact ⟨rfl, by simp, rfl, rfl, rfl⟩
  · split
    · rename_i k t2 h
      have : t2 = c.t2.RemoveOldest.2 := by rw [h]
      subst this
      exact ⟨rfl, rfl, by simp, rfl, by simp⟩
    · rename_i t2 h
      have : t2 = c.t2.RemoveOldest.2 := by rw [h]
      subst this
      exact ⟨rfl, rfl, by simp, rfl, rfl⟩

theorem replace_t1_Peek_none (c : ARCCache κ ν) (b : Bool) (k : κ) (h : c.t1.Peek k = none) :
    (c.replace b).t1.Peek k = none := by
  unfold ARCCache.replace
  simp only
  split
  · split
    · rename_i k1 t1 h1
      have : t1 = c.t1.RemoveOldest.2 := by rw [h1]
      subst this
      exact Peek_RemoveOldest_none c.t1 k h
    · rename_i t1 h1
      have : t1 = c.t1.RemoveOldest.2 := by rw [h1]
      subst this
      exact Peek_RemoveOldest_none c.t1 k h
  · split <;> exact h

theorem Get_fst (c : ARCCache κ ν) (k : κ) : (c.Get k).1 = c.Peek k := by
  unfold ARCCache.Get ARCCache.Peek
  cases h1 : c.t1.Peek k with
  | some v => rfl
  | none =>
    simp only
    cases h2 : c.t2.Peek k with
    | none => rw [Get_of_Peek_none _ _ h2]
    | some v =>
      have := (Get_of_Peek_some _ _ _ h2).1
      split
      · rename_i v1 t2 hg
        rw [hg] at this
        exact this
      · rename_i t2 hg
        rw [hg] at this
        cases this

theorem ARC_Get_of_Peek_none (c : ARCCache κ ν) (k : κ) (h : c.Peek k = none) :
    c.Get k = (none, c) := by
  unfold ARCCache.Peek at h
  unfold ARCCache.Get
  cases h1 : c.t1.Peek k with
  | some v => rw [h1] at h; cases h
  | none =>
    rw [h1] at h
    simp only at h ⊢
    rw [simplelru.Get_of_Peek_none _ _ h]

theorem sameSizes_Get (c : ARCCache κ ν) (k : κ) : sameSizes c (c.Get k).2 := by
  unfold ARCCache.Get
  split
  · exact ⟨rfl, by simp, by simp, rfl, rfl⟩
  · split
    · rename_i v t2 hg
      have : t2 = (c.t2.Get k).2 := by rw [hg]
      subst this
      exact ⟨rfl, rfl, by simp, rfl, rfl⟩
    · exact ⟨rfl, rfl, rfl, rfl, rfl⟩

/-- After a hit, the key is still held, with the same value. -/
theorem Peek_Get_self (c : ARCCache κ ν) (k : κ) (v : ν) (hs : c.sized)
    (h : c.Peek k = some v) : (c.Get k).2.Peek k = some v := by
  obtain ⟨s0, s1, s2, _, _⟩ := hs
  unfold ARCCache.Peek at h
  unfold ARCCache.Get
  cases h1 : c.t1.Peek k with
  | some v1 =>
    rw [h1] at h
    cases h
    simp only [ARCCache.Peek, Peek_Remove_self, Peek_Add_self c.t2 k v (by omega)]
  | none =>
    rw [h1] at h
    simp only at h ⊢
    obtain ⟨g1, g2⟩ := Get_of_Peek_some _ _ _ h
    split
    · rename_i v1 t2 hg
      have : t2 = (c.t2.Get k).2 := by rw [hg]
      subst this
      simp only [ARCCache.Peek, h1, g2]
    · rename_i t2 hg
      rw [hg] at g1
      cases g1

theorem ARC_Peek_update_self (c : ARCCache κ ν) (k : κ) (f : ν → ν) :
    (c.update k f).Peek k = (c.Peek k).map f := by
  unfold ARCCache.update ARCCache.Peek
  simp only [simplelru.Peek_update_self]
  cases c.t1.Peek k <;> rfl

theorem ARC_Peek_update_other (c : ARCCache κ ν) {k k1 : κ} (hne : k1 ≠ k) (f : ν → ν) :
    (c.update k f).Peek k1 = c.Peek k1 := by
  unfold ARCCache.update ARCCache.Peek
  simp only [simplelru.Peek_update_other _ hne]

theorem sameSizes_update (c : ARCCache κ ν) (k : κ) (f : ν → ν) :
    sameSizes c (c.update k f) :=
  ⟨rfl, rfl, rfl, rfl, rfl⟩

omit [DecidableEq κ] in
theorem sameSizes_refl (c : ARCCache κ ν) : sameSizes c c := ⟨rfl, rfl, rfl, rfl, rfl⟩

omit [DecidableEq κ] in
theorem sameSizes_trans {c c1 c2 : ARCCache κ ν} (h1 : sameSizes c c1) (h2 : sameSizes c1 c2) :
    sameSizes c c2 := by
  obtain ⟨a0, a1, a2, a3, a4⟩ := h1
  obtain ⟨b0, b1, b2, b3, b4⟩ := h2
  exact ⟨by omega, by omega, by omega, by omega, by omega⟩

/-- The step shared by the ghost-hit branches of `Add`: room is made when the cache is
full. -/
theorem sameSizes_makeRoom (c : ARCCache κ ν) (b : Bool) :
    sameSizes c (if c.t1.Len + c.t2.Len ≥ c.size then c.replace b else c) := by
  split
  · exact sameSizes_replace c b
  · exact sameSizes_refl c

theorem makeRoom_t1_Peek_none (c : ARCCache κ ν) (b : Bool) (k : κ) (h : c.t1.Peek k = none) :
    (if c.t1.Len + c.t2.Len ≥ c.size then c.replace b else c).t1.Peek k = none := by
  split
  · exact replace_t1_Peek_none c b k h
  · exact h

/-- The end of the branch of `Add` for a key found in `b1`. -/
theorem ghostHit_b1 (c0 c1 : ARCCache κ ν) (b : Bool) (k : κ) (v : ν) (h0 : sameSizes c0 c1)
    (hs : c0.sized) (q1 : c1.t1.Peek k = none) :
    sameSizes c0
        { (if c1.t1.Len + c1.t2.Len ≥ c1.size then c1.replace b else c1) with
          b1 := (if c1.t1.Len + c1.t2.Len ≥ c1.size then c1.replace b else c1).b1.Remove k
          t2 := (if c1.t1.Len + c1.t2.Len ≥ c1.size then c1.replace b else c1).t2.Add k v } ∧
      ARCCache.Peek
        { (if c1.t1.Len + c1.t2.Len ≥ c1.size then c1.replace b else c1) with
          b1 := (if c1.t1.Len + c1.t2.Len ≥ c1.size then c1.replace b else c1).b1.Remove k
          t2 := (if c1.t1.Len + c1.t2.Len ≥ c1.size then c1.replace b else c1).t2.Add k v } k =
        some v := by
  obtain ⟨s0, s1, s2, s3, s4⟩ := hs
  have e2 := sameSizes_trans h0 (sameSizes_makeRoom c1 b)
  have q2 := makeRoom_t1_Peek_none c1 b k q1
  generalize (if c1.t1.Len + c1.t2.Len ≥ c1.size then c1.replace b else c1) = c2 at e2 q2 ⊢
  obtain ⟨a0, a1, a2, a3, a4⟩ := e2
  refine ⟨⟨a0, a1, by simp [a2], by simp [a3], a4⟩, ?_⟩
  simp only [ARCCache.Peek, q2, simplelru.Peek_Add_self c2.t2 k v (by omega)]

/-- The end of the branch of `Add` for a key found in `b2`. -/
theorem ghostHit_b2 (c0 c1 : ARCCache κ ν) (b : Bool) (k : κ) (v : ν) (h0 : sameSizes c0 c1)
    (hs : c0.sized) (q1 : c1.t1.Peek k = none) :
    sameSizes c0
        { (if c1.t1.Len + c1.t2.Len ≥ c1.size then c1.replace b else c1) with
          b2 := (if c1.t1.Len + c1.t2.Len ≥ c1.size then c1.replace b else c1).b2.Remove k
          t2 := (if c1.t1.Len + c1.t2.Len ≥ c1.size then c1.replace b else c1).t2.Add k v } ∧
      ARCCache.Peek
        { (if c1.t1.Len + c1.t2.Len ≥ c1.size then c1.replace b else c1) with
          b2 := (if c1.t1.Len + c1.t2.Len ≥ c1.size then c1.replace b else c1).b2.Remove k
          t2 := (if c1.t1.Len + c1.t2.Len ≥ c1.size then c1.replace b else c1).t2.Add k v } k =
        some v := by
  obtain ⟨s0, s1, s2, s3, s4⟩ := hs
  have e2 := sameSizes_trans h0 (sameSizes_makeRoom c1 b)
  have q2 := makeRoom_t1_Peek_none c1 b k q1
  generalize (if c1.t1.Len + c1.t2.Len ≥ c1.size then c1.replace b else c1) = c2 at e2 q2 ⊢
  obtain ⟨a0, a1, a2, a3, a4⟩ := e2
  refine ⟨⟨a0, a1, by simp [a2], a3, by simp [a4]⟩, ?_⟩
  simp only [ARCCache.Peek, q2, simplelru.Peek_Add_self c2.t2 k v (by omega)]

/-- The end of the branch of `Add` for a key that is new to the cache. -/
theorem newKey_props (c0 c3 : ARCCache κ ν) (k : κ) (v : ν) (h0 : sameSizes c0 c3)
    (hs : c0.sized) :
    sameSizes c0 { c3 with t1 := c3.t1.Add k v } ∧
      ARCCache.Peek { c3 with t1 := c3.t1.Add k v } k = some v := by
  obtain ⟨s0, s1, s2, s3, s4⟩ := hs
  obtain ⟨a0, a1, a2, a3, a4⟩ := h0
  refine ⟨⟨a0, by simp [a1], a2, a3, a4⟩, ?_⟩
  simp only [ARCCache.Peek, simplelru.Peek_Add_self c3.t1 k v (by omega)]

omit [DecidableEq κ] in
theorem sameSizes_trim (c : ARCCache κ ν) :
    sameSizes c
      (if (if c.b1.Len > c.size - c.p then { c with b1 := c.b1.RemoveOldest.2 } else c).b2.Len >
          (if c.b1.Len > c.size - c.p then { c with b1 := c.b1.RemoveOldest.2 } else c).p then
        { (if c.b1.Len > c.size - c.p then { c with b1 := c.b1.RemoveOldest.2 } else c) with
          b2 := (if c.b1.Len > c.size - c.p then { c with b1 := c.b1.RemoveOldest.2 }
            else c).b2.RemoveOldest.2 }
      else (if c.b1.Len > c.size - c.p then { c with b1 := c.b1.RemoveOldest.2 } else c)) := by
  have e2 : sameSizes c
      (if c.b1.Len > c.size - c.p then { c with b1 := c.b1.RemoveOldest.2 } else c) := by
    split
    · exact ⟨rfl, rfl, rfl, by simp, rfl⟩
    · exact sameSizes_refl c
  generalize (if c.b1.Len > c.size - c.p then { c with b1 := c.b1.RemoveOldest.2 } else c) = c2
    at e2 ⊢
  refine sameSizes_trans e2 ?_
  split
  · exact ⟨rfl, rfl, rfl, rfl, by simp⟩
  · exact sameSizes_refl c2

/-- Go `Add` keeps the capacities, and the entry just added is found with its value. -/
theorem Add_props (c : ARCCache κ ν) (k : κ) (v : ν) (hs : c.sized) :
    sameSizes c (c.Add k v) ∧ (c.Add k v).Peek k = some v := by
  have hs1 := hs
  obtain ⟨s0, s1, s2, s3, s4⟩ := hs1
  unfold ARCCache.Add
  split
  · refine ⟨⟨rfl, by simp, by simp, rfl, rfl⟩, ?_⟩
    simp only [ARCCache.Peek, Peek_Remove_self, simplelru.Peek_Add_self c.t2 k v (by omega)]
  · rename_i h1
    have p1 : c.t1.Peek k = none := Peek_eq_none (by simpa using h1)
    split
    · refine ⟨⟨rfl, rfl, by simp, rfl, rfl⟩, ?_⟩
      simp only [ARCCache.Peek, p1, simplelru.Peek_Add_self c.t2 k v (by omega)]
    · split
      · exact ghostHit_b1 c _ false k v ⟨rfl, rfl, rfl, rfl, rfl⟩ hs p1
      · split
        · exact ghostHit_b2 c _ true k v ⟨rfl, rfl, rfl, rfl, rfl⟩ hs p1
        · exact newKey_props c _ k v
            (sameSizes_trans (sameSizes_makeRoom c false) (sameSizes_trim _)) hs

/-- With room left, the branch of `Add` for a key found in `b1` keeps the other
entries. -/
theorem ghostHit_b1_room (c1 : ARCCache κ ν) (b : Bool) (k : κ) (v : ν) {k1 : κ}
    (hne : k1 ≠ k) (hsz : c1.t2.size = c1.size) (hroom : c1.t1.Len + c1.t2.Len < c1.size) :
    ARCCache.Peek
        { (if c1.t1.Len + c1.t2.Len ≥ c1.size then c1.replace b else c1) with
          b1 := (if c1.t1.Len + c1.t2.Len ≥ c1.size then c1.replace b else c1).b1.Remove k
          t2 := (if c1.t1.Len + c1.t2.Len ≥ c1.size then c1.replace b else c1).t2.Add k v }
        k1 = c1.Peek k1 := by
  rw [if_neg (by omega)]
  simp only [ARCCache.Peek, simplelru.Peek_Add_other_of_room c1.t2 k v hne (by omega)]

/-- With room left, the branch of `Add` for a key found in `b2` keeps the other
entries. -/
theorem ghostHit_b2_room (c1 : ARCCache κ ν) (b : Bool) (k : κ) (v : ν) {k1 : κ}
    (hne : k1 ≠ k) (hsz : c1.t2.size = c1.size) (hroom : c1.t1.Len + c1.t2.Len < c1.size) :
    ARCCache.Peek
        { (if c1.t1.Len + c1.t2.Len ≥ c1.size then c1.replace b else c1) with
          b2 := (if c1.t1.Len + c1.t2.Len ≥ c1.size then c1.replace b else c1).b2.Remove k
          t2 := (if c1.t1.Len + c1.t2.Len ≥ c1.size then c1.replace b else c1).t2.Add k v }
        k1 = c1.Peek k1 := by
  rw [if_neg (by omega)]
  simp only [ARCCache.Peek, simplelru.Peek_Add_other_of_room c1.t2 k v hne (by omega)]

omit [DecidableEq κ] in
theorem trim_t1_t2 (c : ARCCache κ ν) :
    (if (if c.b1.Len > c.size - c.p then { c with b1 := c.b1.RemoveOldest.2 } else c).b2.Len >
          (if c.b1.Len > c.size - c.p then { c with b1 := c.b1.RemoveOldest.2 } else c).p then
        { (if c.b1.Len > c.size - c.p then { c with b1 := c.b1.RemoveOldest.2 } else c) with
          b2 := (if c.b1.Len > c.size - c.p then { c with b1 := c.b1.RemoveOldest.2 }
            else c).b2.RemoveOldest.2 }
      else (if c.b1.Len > c.size - c.p then { c with b1 := c.b1.RemoveOldest.2 } else c)).t1 =
        c.t1 ∧
    (if (if c.b1.Len > c.size - c.p then { c with b1 := c.b1.RemoveOldest.2 } else c).b2.Len >
          (if c.b1.Len > c.size - c.p then { c with b1 := c.b1.RemoveOldest.2 } else c).p then
        { (if c.b1.Len > c.size - c.p then { c with b1 := c.b1.RemoveOldest.2 } else c) with
          b2 := (if c.b1.Len > c.size - c.p then { c with b1 := c.b1.RemoveOldest.2 }
            else c).b2.RemoveOldest.2 }
      else (if c.b1.Len > c.size - c.p then { c with b1 := c.b1.RemoveOldest.2 } else c)).t2 =
        c.t2 := by
  constructor <;> split <;> split <;> rfl

/-- With room left, the branch of `Add` for a new key keeps the other entries. -/
theorem newKey_room (c0 c3 : ARCCache κ ν) (k : κ) (v : ν) {k1 : κ} (hne : k1 ≠ k)
    (h1 : c3.t1 = c0.t1) (h2 : c3.t2 = c0.t2) (hroom : c0.t1.Len < c0.t1.size) :
    ARCCache.Peek { c3 with t1 := c3.t1.Add k v } k1 = c0.Peek k1 := by
  simp only [ARCCache.Peek, h1, h2, simplelru.Peek_Add_other_of_room c0.t1 k v hne hroom]

/-- A cache that is not full loses no entry when a key is added. -/
theorem ARC_Peek_Add_other_of_room (c : ARCCache κ ν) (k : κ) (v : ν) {k1 : κ} (hne : k1 ≠ k)
    (hs : c.sized) (hroom : c.Len < c.size) : (c.Add k v).Peek k1 = c.Peek k1 := by
  obtain ⟨s0, s1, s2, s3, s4⟩ := hs
  unfold ARCCache.Len at hroom
  unfold ARCCache.Add
  split
  · simp only [ARCCache.Peek, Peek_Remove_other _ hne,
      simplelru.Peek_Add_other_of_room c.t2 k v hne (by omega)]
  · split
    · simp only [ARCCache.Peek, simplelru.Peek_Add_other_of_room c.t2 k v hne (by omega)]
    · split
      · exact ghostHit_b1_room _ false k v hne s2 hroom
      · split
        · exact ghostHit_b2_room _ true k v hne s2 hroom
        · have hmr : (if c.t1.Len + c.t2.Len ≥ c.size then c.replace false else c) = c :=
            if_neg (by omega)
          simp only [hmr]
          exact newKey_room c _ k v hne (trim_t1_t2 c).1 (trim_t1_t2 c).2 (by omega)

/-- A cache that is not full still holds, after `Add`, every key it held. -/
theorem Contains_Add_of_room (c : ARCCache κ ν) (k : κ) (v : ν) (k1 : κ) (hs : c.sized)
    (hroom : c.Len < c.size) (h : c.Contains k1 = true) : (c.Add k v).Contains k1 = true := by
  rw [ARC_Contains_eq_isSome] at h ⊢
  by_cases hne : k1 = k
  · subst hne
    rw [(Add_props c k1 v hs).2]
    rfl
  · rw [ARC_Peek_Add_other_of_room c k v hne hs hroom]
    exact h

theorem sized_Add (c : ARCCache κ ν) (k : κ) (v : ν) (hs : c.sized) : (c.Add k v).sized :=
  sized_of_sameSizes (Add_props c k v hs).1 hs

theorem ARC_Peek_Add_self (c : ARCCache κ ν) (k : κ) (v : ν) (hs : c.sized) :
    (c.Add k v).Peek k = some v :=
  (Add_props c k v hs).2

theorem sized_Get (c : ARCCache κ ν) (k : κ) (hs : c.sized) : (c.Get k).2.sized :=
  sized_of_sameSizes (sameSizes_Get c k) hs

theorem sized_update (c : ARCCache κ ν) (k : κ) (f : ν → ν) (hs : c.sized) :
    (c.update k f).sized :=
  sized_of_sameSizes (sameSizes_update c k f) hs

omit [DecidableEq κ] in
/-- Go `NewARC` with a positive size gives an empty cache of that capacity. -/
theorem NewARC_pos (size : Nat) (h : 0 < size) :
    ∃ m : ARCCache κ ν, NewARC size = some m ∧ m.sized ∧ m.Len = 0 := by
  have hne : size ≠ 0 := by omega
  refine ⟨{ size := size, p := 0, t1 := ⟨size, []⟩, b1 := ⟨size, []⟩, t2 := ⟨size, []⟩,
            b2 := ⟨size, []⟩ }, ?_, ⟨h, rfl, rfl, rfl, rfl⟩, rfl⟩
  simp [NewARC, NewLRU, hne]

omit [DecidableEq κ] in
theorem NewARC_zero : (NewARC 0 : Option (ARCCache κ ν)) = none := by
  simp [NewARC, NewLRU]

theorem ARC_Contains_iff (c : ARCCache κ ν) (x : κ) :
    c.Contains x = true ↔ c.t1.Contains x = true ∨ c.t2.Contains x = true := by
  simp [ARCCache.Contains]

theorem Contains_replace_imp (c : ARCCache κ ν) (b : Bool) (x : κ)
    (h : (c.replace b).Contains x = true) : c.Contains x = true := by
  rw [ARC_Contains_iff] at h ⊢
  unfold ARCCache.replace at h
  simp only at h
  split at h
  · split at h
    · rename_i k1 t1 h1
      have : t1 = c.t1.RemoveOldest.2 := by rw [h1]
      subst this
      exact h.imp (Contains_RemoveOldest_imp c.t1 x) id
    · rename_i t1 h1
      have : t1 = c.t1.RemoveOldest.2 := by rw [h1]
      subst this
      exact h.imp (Contains_RemoveOldest_imp c.t1 x) id
  · split at h
    · rename_i k1 t2 h1
      have : t2 = c.t2.RemoveOldest.2 := by rw [h1]
      subst this
      exact h.imp id (Contains_RemoveOldest_imp c.t2 x)
    · rename_i t2 h1
      have : t2 = c.t2.RemoveOldest.2 := by rw [h1]
      subst this
      exact h.imp id (Contains_RemoveOldest_imp c.t2 x)

theorem Contains_makeRoom_imp (c : ARCCache κ ν) (b : Bool) (x : κ)
    (h : (if c.t1.Len + c.t2.Len ≥ c.size then c.replace b else c).Contains x = true) :
    c.Contains x = true := by
  split at h
  · exact Contains_replace_imp c b x h
  · exact h

/-- The keys left by the branch of `Add` for a key found in `b1`. -/
theorem ghostHit_b1_keys (c1 : ARCCache κ ν) (b : Bool) (k : κ) (v : ν) (x : κ)
    (h : ARCCache.Contains
        { (if c1.t1.Len + c1.t2.Len ≥ c1.size then c1.replace b else c1) with
          b1 := (if c1.t1.Len + c1.t2.Len ≥ c1.size then c1.replace b else c1).b1.Remove k
          t2 := (if c1.t1.Len + c1.t2.Len ≥ c1.size then c1.replace b else c1).t2.Add k v }
        x = true) :
    x = k ∨ c1.Contains x = true := by
  have hmr := Contains_makeRoom_imp c1 b x
  generalize (if c1.t1.Len + c1.t2.Len ≥ c1.size then c1.replace b else c1) = c2 at h hmr
  rw [ARC_Contains_iff] at h
  simp only at h
  rcases h with h | h
  · exact Or.inr (hmr ((ARC_Contains_iff c2 x).mpr (Or.inl h)))
  · rcases Contains_Add_imp c2.t2 k v x h with h | h
    · exact Or.inl h
    · exact Or.inr (hmr ((ARC_Contains_iff c2 x).mpr (Or.inr h)))

/-- The keys left by the branch of `Add` for a key found in `b2`. -/
theorem ghostHit_b2_keys (c1 : ARCCache κ ν) (b : Bool) (k : κ) (v : ν) (x : κ)
    (h : ARCCache.Contains
        { (if c1.t1.Len + c1.t2.Len ≥ c1.size then c1.replace b else c1) with
          b2 := (if c1.t1.Len + c1.t2.Len ≥ c1.size then c1.replace b else c1).b2.Remove k
          t2 := (if c1.t1.Len + c1.t2.Len ≥ c1.size then c1.replace b else c1).t2.Add k v }
        x = true) :
    x = k ∨ c1.Contains x = true := by
  have hmr := Contains_makeRoom_imp c1 b x
  generalize (if c1.t1.Len + c1.t2.Len ≥ c1.size then c1.replace b else c1) = c2 at h hmr
  rw [ARC_Contains_iff] at h
  simp only at h
  rcases h with h | h
  · exact Or.inr (hmr ((ARC_Contains_iff c2 x).mpr (Or.inl h)))
  · rcases Contains_Add_imp c2.t2 k v x h with h | h
    · exact Or.inl h
    · exact Or.inr (hmr ((ARC_Contains_iff c2 x).mpr (Or.inr h)))

/-- The keys left by the branch of `Add` for a key that is new to the cache. -/
theorem newKey_keys (c1 c3 : ARCCache κ ν) (k : κ) (v : ν) (x : κ) (h1 : c3.t1 = c1.t1)
    (h2 : c3.t2 = c1.t2)
    (h : ARCCache.Contains { c3 with t1 := c3.t1.Add k v } x = true) :
    x = k ∨ c1.Contains x = true := by
  rw [ARC_Contains_iff] at h
  simp only [h1, h2] at h
  rcases h with h | h
  · rcases Contains_Add_imp c1.t1 k v x h with h | h
    · exact Or.inl h
    · exact Or.inr ((ARC_Contains_iff c1 x).mpr (Or.inl h))
  · exact Or.inr ((ARC_Contains_iff c1 x).mpr (Or.inr h))

/-- The only key `Add` can bring into the cache is the one it is given. -/
theorem ARC_Contains_Add_imp (c : ARCCache κ ν) (k : κ) (v : ν) (x : κ) :
    (c.Add k v).Contains x = true → x = k ∨ c.Contains x = true := by
  unfold ARCCache.Add
  split
  · intro h
    rw [ARC_Contains_iff] at h
    simp only at h
    rcases h with h | h
    · exact Or.inr ((ARC_Contains_iff c x).mpr (Or.inl (Contains_Remove_imp c.t1 k x h)))
    · rcases Contains_Add_imp c.t2 k v x h with h | h
      · exact Or.inl h
      · exact Or.inr ((ARC_Contains_iff c x).mpr (Or.inr h))
  · split
    · intro h
      rw [ARC_Contains_iff] at h
      simp only at h
      rcases h with h | h
      · exact Or.inr ((ARC_Contains_iff c x).mpr (Or.inl h))
      · rcases Contains_Add_imp c.t2 k v x h with h | h
        · exact Or.inl h
        · exact Or.inr ((ARC_Contains_iff c x).mpr (Or.inr h))
    · split
      · intro h
        have key := ghostHit_b1_keys _ false k v x h
        exact key
      · split
        · intro h
          have key := ghostHit_b2_keys _ true k v x h
          exact key
        · intro h
          exact (newKey_keys _ _ k v x (trim_t1_t2 _).1 (trim_t1_t2 _).2 h).imp id
            (Contains_makeRoom_imp c false x)

/-- A lookup brings no key into the cache. -/
theorem ARC_Contains_Get_imp (c : ARCCache κ ν) (k : κ) (x : κ) :
    (c.Get k).2.Contains x = true → c.Contains x = true := by
  unfold ARCCache.Get
  cases h1 : c.t1.Peek k with
  | some v =>
    intro h
    rw [ARC_Contains_iff] at h ⊢
    simp only at h
    rcases h with h | h
    · exact Or.inl (Contains_Remove_imp c.t1 k x h)
    · rcases Contains_Add_imp c.t2 k v x h with h | h
      · left
        rw [h, simplelru.Contains_eq_isSome, h1]
        rfl
      · exact Or.inr h
  | none =>
    simp only
    split
    · rename_i v t2 hg
      have : t2 = (c.t2.Get k).2 := by rw [hg]
      subst this
      intro h
      rw [ARC_Contains_iff] at h ⊢
      simp only at h
      refine h.imp id ?_
      rw [simplelru.Contains_eq_isSome, Peek_Get, ← simplelru.Contains_eq_isSome]
      exact id
    · exact id

/-- A cache within its capacity answers every lookup after `Get` as before it. -/
theorem ARC_Peek_Get (c : ARCCache κ ν) (k x : κ) (hs : c.sized) (hlen : c.Len ≤ c.size) :
    (c.Get k).2.Peek x = c.Peek x := by
  obtain ⟨s0, s1, s2, _, _⟩ := hs
  unfold ARCCache.Len at hlen
  cases hp : c.Peek k with
  | none => rw [ARC_Get_of_Peek_none c k hp]
  | some v =>
    by_cases hx : x = k
    · subst hx
      rw [Peek_Get_self c x v ⟨s0, s1, s2, by assumption, by assumption⟩ hp, hp]
    · unfold ARCCache.Get
      cases h1 : c.t1.Peek k with
      | some v1 =>
        have hpos := Len_pos_of_Peek h1
        simp only [ARCCache.Peek, Peek_Remove_other _ hx,
          simplelru.Peek_Add_other_of_room c.t2 k v1 hx (by omega)]
      | none =>
        simp only
        split
        · rename_i v1 t2 hg
          have : t2 = (c.t2.Get k).2 := by rw [hg]
          subst this
          simp only [ARCCache.Peek, Peek_Get]
        · rfl

/-- A cache within its capacity holds after `Get` exactly the keys it held. -/
theorem ARC_Contains_Get (c : ARCCache κ ν) (k x : κ) (hs : c.sized) (hlen : c.Len ≤ c.size) :
    (c.Get k).2.Contains x = c.Contains x := by
  rw [ARC_Contains_eq_isSome, ARC_Contains_eq_isSome, ARC_Peek_Get c k x hs hlen]

end lru

/-! ## Lemmas: the handlers -/

section HandlerLemmas

open lru

variable {Hash : Type} [DecidableEq Hash]

/-- The state a call of `HandleMsg` leaves when the core is started and the message of
code `smilobftMsg` decodes to `d`, with `m0` the cache that `NewARC` returns. -/
theorem HandleMsg_started (D : Decls Hash) (sb : backend Hash) (addr : Address) (msg : Msg)
    (d : Bytes) (m0 : ARCCache Hash Bool) (hcode : msg.Code = D.smilobftMsg)
    (hstart : sb.coreStarted = true) (hdec : D.Decode msg = some d)
    (hnew : NewARC D.inmemoryMessages = some m0) :
    HandleMsg D sb addr msg =
      some ((true, none),
        { sb with
          recentMessages :=
            (match sb.recentMessages.Peek addr with
              | some _ => (sb.recentMessages.Get addr).2
              | none => sb.recentMessages.Add addr m0).update addr
              fun m => m.Add (D.RLPHash d) true
          knownMessages :=
            match sb.knownMessages.Peek (D.RLPHash d) with
            | some _ => (sb.knownMessages.Get (D.RLPHash d)).2
            | none => sb.knownMessages.Add (D.RLPHash d) true
          posted :=
            match sb.knownMessages.Peek (D.RLPHash d) with
            | some _ => sb.posted
            | none => sb.posted ++ [Event.MessageEvent d] }) := by
  unfold HandleMsg
  rw [if_pos hcode]
  simp only [hstart, Bool.not_true, Bool.false_eq_true, if_false, hdec, hnew]
  have hr := Get_fst sb.recentMessages addr
  have hk := Get_fst sb.knownMessages (D.RLPHash d)
  rcases hG : sb.recentMessages.Get addr with ⟨x, recent⟩
  rcases hK : sb.knownMessages.Get (D.RLPHash d) with ⟨y, known⟩
  rw [hG] at hr
  rw [hK] at hk
  simp only at hr hk
  rw [← hr, ← hk]
  cases x with
  | some m =>
    cases y with
    | some b => rfl
    | none =>
      have := ARC_Get_of_Peek_none sb.knownMessages (D.RLPHash d) hk.symm
      rw [hK] at this
      cases this
      rfl
  | none =>
    have hr2 := ARC_Get_of_Peek_none sb.recentMessages addr hr.symm
    rw [hG] at hr2
    cases hr2
    cases y with
    | some b => rfl
    | none =>
      have := ARC_Get_of_Peek_none sb.knownMessages (D.RLPHash d) hk.symm
      rw [hK] at this
      cases this
      rfl

/-- After a call the hash of the message is held by `knownMessages`. -/
theorem known_after (K : ARCCache Hash Bool) (h : Hash) (hs : K.sized) :
    ∃ v, ARCCache.Peek
      (match K.Peek h with
        | some _ => (K.Get h).2
        | none => K.Add h true) h = some v := by
  cases hp : K.Peek h with
  | none => exact ⟨true, ARC_Peek_Add_self K h true hs⟩
  | some v => exact ⟨v, Peek_Get_self K h v hs hp⟩

theorem sized_known_after (K : ARCCache Hash Bool) (h : Hash) (hs : K.sized) :
    ARCCache.sized
      (match K.Peek h with
        | some _ => (K.Get h).2
        | none => K.Add h true) := by
  cases hp : K.Peek h with
  | none => exact sized_Add K h true hs
  | some v => exact sized_Get K h hs

/-- C1 (idempotent dedupe). With `knownMessages` a cache of positive capacity and
`inmemoryMessages` positive: from every state two consecutive calls of `HandleMsg` with the
same peer and message both return, and the second one posts no event; and if the core is
started, the message has code `smilobftMsg` and decodes to `d`, and the hash of `d` is not
in `knownMessages`, the first call returns `(true, nil)` and posts exactly the one event
`MessageEvent d`, and the second returns `(true, nil)` and posts nothing. -/
theorem HandleMsg_dedupe (D : Decls Hash) (sb : backend Hash) (addr : Address) (msg : Msg)
    (hk : sb.knownMessages.sized) (hmem : 0 < D.inmemoryMessages) :
    (∃ r1 sb1 r2 sb2, HandleMsg D sb addr msg = some (r1, sb1) ∧
        HandleMsg D sb1 addr msg = some (r2, sb2) ∧ sb2.posted = sb1.posted) ∧
      (∀ d, msg.Code = D.smilobftMsg → D.Decode msg = some d → sb.coreStarted = true →
        sb.knownMessages.Contains (D.RLPHash d) = false →
        ∃ sb1 sb2, HandleMsg D sb addr msg = some ((true, none), sb1) ∧
          sb1.posted = sb.posted ++ [Event.MessageEvent d] ∧
          HandleMsg D sb1 addr msg = some ((true, none), sb2) ∧ sb2.posted = sb1.posted) := by
  obtain ⟨m0, hnew, _, _⟩ := @NewARC_pos Hash Bool D.inmemoryMessages hmem
  have second : ∀ d, msg.Code = D.smilobftMsg → D.Decode msg = some d →
      sb.coreStarted = true →
      ∃ sb1 sb2, HandleMsg D sb addr msg = some ((true, none), sb1) ∧
        (sb.knownMessages.Peek (D.RLPHash d) = none →
          sb1.posted = sb.posted ++ [Event.MessageEvent d]) ∧
        HandleMsg D sb1 addr msg = some ((true, none), sb2) ∧ sb2.posted = sb1.posted := by
    intro d hcode hdec hstart
    have h1 := HandleMsg_started D sb addr msg d m0 hcode hstart hdec hnew
    refine ⟨_, _, h1, ?_, HandleMsg_started D _ addr msg d m0 hcode hstart hdec hnew, ?_⟩
    · intro hp
      simp only [hp]
    · obtain ⟨v, hv⟩ := known_after sb.knownMessages (D.RLPHash d) hk
      simp only [hv]
  refine ⟨?_, ?_⟩
  · by_cases hcode : msg.Code = D.smilobftMsg
    · cases hstart : sb.coreStarted with
      | false =>
        have h1 : HandleMsg D sb addr msg = some ((true, some .ErrStoppedEngine), sb) := by
          unfold HandleMsg
          rw [if_pos hcode]
          simp [hstart]
        exact ⟨_, _, _, _, h1, h1, rfl⟩
      | true =>
        cases hdec : D.Decode msg with
        | none =>
          have h1 : HandleMsg D sb addr msg = some ((true, some .errDecodeFailed), sb) := by
            unfold HandleMsg
            rw [if_pos hcode]
            simp [hstart, hdec]
          exact ⟨_, _, _, _, h1, h1, rfl⟩
        | some d =>
          obtain ⟨sb1, sb2, h1, _, h2, h3⟩ := second d hcode hdec hstart
          exact ⟨_, _, _, _, h1, h2, h3⟩
    · have h1 : HandleMsg D sb addr msg = some ((false, none), sb) := by
        unfold HandleMsg
        rw [if_neg hcode]
      exact ⟨_, _, _, _, h1, h1, rfl⟩
  · intro d hcode hdec hstart hfresh
    obtain ⟨sb1, sb2, h1, hp, h2, h3⟩ := second d hcode hdec hstart
    rw [ARC_Contains_eq_isSome] at hfresh
    have hnone : sb.knownMessages.Peek (D.RLPHash d) = none := by
      cases hq : sb.knownMessages.Peek (D.RLPHash d) with
      | none => rfl
      | some v => rw [hq] at hfresh; cases hfresh
    exact ⟨sb1, sb2, h1, hp hnone, h2, h3⟩

/-- C1, at the example backend (started, empty caches) and the example message. -/
theorem HandleMsg_dedupe_witness :
    ∃ sb1 sb2, HandleMsg exampleDecls exampleBackend exampleAddress exampleMsg =
        some ((true, none), sb1) ∧
      sb1.posted = [Event.MessageEvent [1, 2, 3, 4, 5]] ∧
      HandleMsg exampleDecls sb1 exampleAddress exampleMsg = some ((true, none), sb2) ∧
      sb2.posted = sb1.posted :=
  (HandleMsg_dedupe exampleDecls exampleBackend exampleAddress exampleMsg (by decide)
    (by decide)).2 [1, 2, 3, 4, 5] (by decide) (by decide) (by decide) (by decide)

/-- C9 (stopped-engine gate). `NewChainHead` returns `ErrStoppedEngine` exactly when
`coreStarted` is false, posting nothing then, and otherwise returns nil and posts one
`FinalCommittedEvent`; on a message of code `smilobftMsg`, `HandleMsg` returns
`(true, ErrStoppedEngine)` exactly when `coreStarted` is false, and then the state is
unchanged and the result is the same whatever `Decode` would do. -/
theorem stopped_engine_gate (D : Decls Hash) (sb : backend Hash) (addr : Address) (msg : Msg) :
    ((NewChainHead sb).1 = some .ErrStoppedEngine ↔ sb.coreStarted = false) ∧
      (sb.coreStarted = false → NewChainHead sb = (some .ErrStoppedEngine, sb)) ∧
      (sb.coreStarted = true →
        NewChainHead sb =
          (none, { sb with posted := sb.posted ++ [Event.FinalCommittedEvent] })) ∧
      (msg.Code = D.smilobftMsg →
        ((∃ sb1, HandleMsg D sb addr msg = some ((true, some .ErrStoppedEngine), sb1)) ↔
          sb.coreStarted = false)) ∧
      (msg.Code = D.smilobftMsg → sb.coreStarted = false →
        ∀ Decode1 : Msg → Option Bytes,
          HandleMsg { D with Decode := Decode1 } sb addr msg =
            some ((true, some .ErrStoppedEngine), sb)) := by
  have stopped : ∀ D1 : Decls Hash, msg.Code = D1.smilobftMsg → sb.coreStarted = false →
      HandleMsg D1 sb addr msg = some ((true, some .ErrStoppedEngine), sb) := by
    intro D1 hcode hstop
    unfold HandleMsg
    rw [if_pos hcode]
    simp [hstop]
  refine ⟨?_, ?_, ?_, ?_, ?_⟩
  · unfold NewChainHead
    cases sb.coreStarted <;> simp
  · intro hstop
    unfold NewChainHead
    simp [hstop]
  · intro hstart
    unfold NewChainHead
    simp [hstart]
  · intro hcode
    constructor
    · rintro ⟨sb1, h1⟩
      cases hstart : sb.coreStarted with
      | false => rfl
      | true =>
        exfalso
        cases hdec : D.Decode msg with
        | none =>
          unfold HandleMsg at h1
          rw [if_pos hcode] at h1
          simp [hstart, hdec] at h1
        | some d =>
          cases hnew : (NewARC D.inmemoryMessages : Option (ARCCache Hash Bool)) with
          | some m0 =>
            rw [HandleMsg_started D sb addr msg d m0 hcode hstart hdec hnew] at h1
            simp at h1
          | none =>
            unfold HandleMsg at h1
            rw [if_pos hcode] at h1
            simp only [hstart, Bool.not_true, Bool.false_eq_true, if_false, hdec, hnew] at h1
            rcases hG : sb.recentMessages.Get addr with ⟨x, recent⟩
            rcases hK : sb.knownMessages.Get (D.RLPHash d) with ⟨y, known⟩
            rw [hG, hK] at h1
            cases x <;> cases y <;> simp at h1
    · intro hstop
      exact ⟨sb, stopped D hcode hstop⟩
  · intro hcode hstop Decode1
    exact stopped { D with Decode := Decode1 } hcode hstop

/-- C9, at the example backend with the core stopped, and with it started. -/
theorem stopped_engine_gate_witness :
    NewChainHead { exampleBackend with coreStarted := false } =
        (some .ErrStoppedEngine, { exampleBackend with coreStarted := false }) ∧
      NewChainHead exampleBackend =
        (none, { exampleBackend with posted := [Event.FinalCommittedEvent] }) ∧
      HandleMsg { exampleDecls with Decode := fun _ => none }
          { exampleBackend with coreStarted := false } exampleAddress exampleMsg =
        some ((true, some .ErrStoppedEngine), { exampleBackend with coreStarted := false }) :=
  ⟨(stopped_engine_gate exampleDecls { exampleBackend with coreStarted := false }
      exampleAddress exampleMsg).2.1 rfl,
    (stopped_engine_gate exampleDecls exampleBackend exampleAddress exampleMsg).2.2.1 rfl,
    (stopped_engine_gate exampleDecls { exampleBackend with coreStarted := false }
      exampleAddress exampleMsg).2.2.2.2 (by decide) rfl fun _ => none⟩

/-- C10 (the per-peer record). With the core started, a message of code `smilobftMsg` that
decodes to `d`, `inmemoryMessages` positive, and `recentMessages` and the cache it holds
for `addr` of positive capacity: `HandleMsg` returns `(true, nil)`, and afterwards
`recentMessages` holds a cache for `addr` that contains the hash of `d`. If `addr` had no
cache, it is the new one of `NewARC` with the hash added; if it had the cache `m`, it is
`m` with the hash added, which keeps every hash of `m` when `m` is not full. None of this
depends on `knownMessages`: with any other global cache the call leaves the same
`recentMessages`. -/
theorem HandleMsg_marks_peer (D : Decls Hash) (sb : backend Hash) (addr : Address) (msg : Msg)
    (d : Bytes) (hcode : msg.Code = D.smilobftMsg) (hdec : D.Decode msg = some d)
    (hstart : sb.coreStarted = true) (hmem : 0 < D.inmemoryMessages)
    (hr : sb.recentMessages.sized)
    (hin : ∀ m, sb.recentMessages.Peek addr = some m → m.sized) :
    ∃ sb1, HandleMsg D sb addr msg = some ((true, none), sb1) ∧
      (∃ m1, sb1.recentMessages.Peek addr = some m1 ∧ m1.Contains (D.RLPHash d) = true) ∧
      (sb.recentMessages.Peek addr = none →
        ∃ m0, NewARC D.inmemoryMessages = some m0 ∧ m0.Len = 0 ∧
          sb1.recentMessages.Peek addr = some (m0.Add (D.RLPHash d) true)) ∧
      (∀ m, sb.recentMessages.Peek addr = some m →
        sb1.recentMessages.Peek addr = some (m.Add (D.RLPHash d) true) ∧
          (m.Len < m.size → ∀ x, m.Contains x = true →
            (m.Add (D.RLPHash d) true).Contains x = true)) ∧
      (∀ K : ARCCache Hash Bool, ∃ sbK,
        HandleMsg D { sb with knownMessages := K } addr msg = some ((true, none), sbK) ∧
          sbK.recentMessages = sb1.recentMessages) := by
  obtain ⟨m0, hnew, hm0, hlen0⟩ := @NewARC_pos Hash Bool D.inmemoryMessages hmem
  have h1 := HandleMsg_started D sb addr msg d m0 hcode hstart hdec hnew
  have hcont : ∀ m : ARCCache Hash Bool, m.sized →
      (m.Add (D.RLPHash d) true).Contains (D.RLPHash d) = true := by
    intro m hm
    rw [ARC_Contains_eq_isSome, ARC_Peek_Add_self m _ true hm]
    rfl
  have hnone : sb.recentMessages.Peek addr = none →
      ARCCache.Peek
        ((match sb.recentMessages.Peek addr with
          | some _ => (sb.recentMessages.Get addr).2
          | none => sb.recentMessages.Add addr m0).update addr
            fun m => m.Add (D.RLPHash d) true) addr = some (m0.Add (D.RLPHash d) true) := by
    intro hp
    simp only [hp, ARC_Peek_update_self, ARC_Peek_Add_self sb.recentMessages addr m0 hr, Option.map_some']
  have hsome : ∀ m, sb.recentMessages.Peek addr = some m →
      ARCCache.Peek
        ((match sb.recentMessages.Peek addr with
          | some _ => (sb.recentMessages.Get addr).2
          | none => sb.recentMessages.Add addr m0).update addr
            fun m => m.Add (D.RLPHash d) true) addr = some (m.Add (D.RLPHash d) true) := by
    intro m hp
    simp only [hp, ARC_Peek_update_self, Peek_Get_self sb.recentMessages addr m hr hp,
      Option.map_some']
  refine ⟨_, h1, ?_, ?_, ?_, ?_⟩
  · rcases Option.eq_none_or_eq_some (sb.recentMessages.Peek addr) with hp | ⟨m, hp⟩
    · exact ⟨_, hnone hp, hcont m0 hm0⟩
    · exact ⟨_, hsome m hp, hcont m (hin m hp)⟩
  · intro hp
    exact ⟨m0, hnew, hlen0, hnone hp⟩
  · intro m hp
    exact ⟨hsome m hp, fun hroom x hx =>
      Contains_Add_of_room m _ true x (hin m hp) hroom hx⟩
  · intro K
    exact ⟨_, HandleMsg_started D { sb with knownMessages := K } addr msg d m0 hcode hstart
      hdec hnew, rfl⟩

/-- C10, at a backend that already holds a cache for the peer and knows the hash `09`:
the cache of the peer is reused and holds both hashes afterwards. -/
theorem HandleMsg_marks_peer_witness :
    ∃ sb1, HandleMsg exampleDecls exampleBackend2 exampleAddress exampleMsg =
        some ((true, none), sb1) ∧
      sb1.recentMessages.Peek exampleAddress =
        some (examplePeerCache.Add [1, 2, 3, 4, 5] true) ∧
      (examplePeerCache.Add [1, 2, 3, 4, 5] true).Contains [9] = true ∧
      (examplePeerCache.Add [1, 2, 3, 4, 5] true).Contains [1, 2, 3, 4, 5] = true :=
  have hpeek : exampleBackend2.recentMessages.Peek exampleAddress = some examplePeerCache := by
    decide
  match HandleMsg_marks_peer exampleDecls exampleBackend2 exampleAddress exampleMsg
      [1, 2, 3, 4, 5] (by decide) (by decide) (by decide) (by decide) (by decide)
      (fun m hm => by
        rw [hpeek] at hm
        cases hm
        decide) with
  | ⟨sb1, h1, _, _, hs, _⟩ =>
    ⟨sb1, h1, (hs examplePeerCache hpeek).1,
      (hs examplePeerCache hpeek).2 (by decide) [9] (by decide), by decide⟩

/-- The four ways in which a call of `HandleMsg` returns: a message of another code, a
stopped core, a payload that does not decode, and an accepted or duplicate message. -/
theorem HandleMsg_cases (D : Decls Hash) (sb : backend Hash) (addr : Address) (msg : Msg)
    (r : Bool × Option Error) (sb1 : backend Hash)
    (h : HandleMsg D sb addr msg = some (r, sb1)) :
    (msg.Code ≠ D.smilobftMsg ∧ r = (false, none) ∧ sb1 = sb) ∨
      (msg.Code = D.smilobftMsg ∧ sb.coreStarted = false ∧
        r = (true, some .ErrStoppedEngine) ∧ sb1 = sb) ∨
      (msg.Code = D.smilobftMsg ∧ sb.coreStarted = true ∧ D.Decode msg = none ∧
        r = (true, some .errDecodeFailed) ∧ sb1 = sb) ∨
      (msg.Code = D.smilobftMsg ∧ sb.coreStarted = true ∧
        ∃ d recent, D.Decode msg = some d ∧ r = (true, none) ∧
          sb1 =
            { sb with
              recentMessages := recent
              knownMessages :=
                match sb.knownMessages.Peek (D.RLPHash d) with
                | some _ => (sb.knownMessages.Get (D.RLPHash d)).2
                | none => sb.knownMessages.Add (D.RLPHash d) true
              posted :=
                match sb.knownMessages.Peek (D.RLPHash d) with
                | some _ => sb.posted
                | none => sb.posted ++ [Event.MessageEvent d] }) := by
  by_cases hcode : msg.Code = D.smilobftMsg
  · cases hstart : sb.coreStarted with
    | false =>
      unfold HandleMsg at h
      rw [if_pos hcode] at h
      simp only [hstart, Bool.not_false, if_true, Option.some.injEq, Prod.mk.injEq] at h
      exact Or.inr (Or.inl ⟨hcode, rfl, by rw [← h.1], h.2.symm⟩)
    | true =>
      cases hdec : D.Decode msg with
      | none =>
        unfold HandleMsg at h
        rw [if_pos hcode] at h
        simp only [hstart, Bool.not_true, Bool.false_eq_true, if_false, hdec,
          Option.some.injEq, Prod.mk.injEq] at h
        exact Or.inr (Or.inr (Or.inl ⟨hcode, rfl, rfl, by rw [← h.1], h.2.symm⟩))
      | some d =>
        refine Or.inr (Or.inr (Or.inr ⟨hcode, rfl, d, ?_⟩))
        unfold HandleMsg at h
        rw [if_pos hcode] at h
        simp only [hstart, Bool.not_true, Bool.false_eq_true, if_false, hdec] at h
        have hk := Get_fst sb.knownMessages (D.RLPHash d)
        rcases hG : sb.recentMessages.Get addr with ⟨x, recent⟩
        rcases hK : sb.knownMessages.Get (D.RLPHash d) with ⟨y, known⟩
        rw [hG, hK] at h
        rw [hK] at hk
        simp only at hk
        rw [← hk]
        have hknown : y = none → known = sb.knownMessages := by
          intro hy
          subst hy
          have := ARC_Get_of_Peek_none sb.knownMessages (D.RLPHash d) hk.symm
          rw [hK] at this
          exact (Prod.mk.inj this).2
        cases x with
        | some m =>
          cases y with
          | some b =>
            simp only [Option.some.injEq, Prod.mk.injEq] at h
            exact ⟨_, rfl, by rw [← h.1], h.2.symm⟩
          | none =>
            simp only [Option.some.injEq, Prod.mk.injEq] at h
            rw [hknown rfl] at h
            exact ⟨_, rfl, by rw [← h.1], h.2.symm⟩
        | none =>
          cases hnew : (NewARC D.inmemoryMessages : Option (ARCCache Hash Bool)) with
          | none =>
            rw [hnew] at h
            cases h
          | some m0 =>
            rw [hnew] at h
            cases y with
            | some b =>
              simp only [Option.some.injEq, Prod.mk.injEq] at h
              exact ⟨_, rfl, by rw [← h.1], h.2.symm⟩
            | none =>
              simp only [Option.some.injEq, Prod.mk.injEq] at h
              rw [hknown rfl] at h
              exact ⟨_, rfl, by rw [← h.1], h.2.symm⟩
  · unfold HandleMsg at h
    rw [if_neg hcode] at h
    simp only [Option.some.injEq, Prod.mk.injEq] at h
    exact Or.inl ⟨hcode, by rw [← h.1], h.2.symm⟩

/-- With `inmemoryMessages` positive every call of `HandleMsg` returns. -/
theorem HandleMsg_returns (D : Decls Hash) (sb : backend Hash) (addr : Address) (msg : Msg)
    (hmem : 0 < D.inmemoryMessages) : ∃ r sb1, HandleMsg D sb addr msg = some (r, sb1) := by
  obtain ⟨m0, hnew, _, _⟩ := @NewARC_pos Hash Bool D.inmemoryMessages hmem
  by_cases hcode : msg.Code = D.smilobftMsg
  · cases hstart : sb.coreStarted with
    | false =>
      refine ⟨(true, some .ErrStoppedEngine), sb, ?_⟩
      unfold HandleMsg
      rw [if_pos hcode]
      simp only [hstart, Bool.not_false, if_true]
    | true =>
      cases hdec : D.Decode msg with
      | none =>
        refine ⟨(true, some .errDecodeFailed), sb, ?_⟩
        unfold HandleMsg
        rw [if_pos hcode]
        simp only [hstart, Bool.not_true, Bool.false_eq_true, if_false, hdec]
      | some d => exact ⟨_, _, HandleMsg_started D sb addr msg d m0 hcode hstart hdec hnew⟩
  · refine ⟨(false, none), sb, ?_⟩
    unfold HandleMsg
    rw [if_neg hcode]

/-- The keys of the global cache after the lookup of `h` and, on a miss, its `Add`: none
but `h` is new, and none is lost when `h` was held already or when there is room. -/
theorem known_after_keys (K : ARCCache Hash Bool) (h : Hash) :
    (∀ x, ARCCache.Contains
        (match K.Peek h with
          | some _ => (K.Get h).2
          | none => K.Add h true) x = true → K.Contains x = true ∨ x = h) ∧
      (K.sized → K.Len ≤ K.size → K.Contains h = true ∨ K.Len < K.size →
        ∀ x, K.Contains x = true →
          ARCCache.Contains
            (match K.Peek h with
              | some _ => (K.Get h).2
              | none => K.Add h true) x = true) := by
  rcases Option.eq_none_or_eq_some (K.Peek h) with hp | ⟨v, hp⟩
  · simp only [hp]
    refine ⟨fun x hx => (ARC_Contains_Add_imp K h true x hx).symm, ?_⟩
    intro hs _ hor x hx
    rcases hor with hc | hroom
    · rw [ARC_Contains_eq_isSome, hp] at hc
      cases hc
    · exact Contains_Add_of_room K h true x hs hroom hx
  · simp only [hp]
    refine ⟨fun x hx => Or.inl (ARC_Contains_Get_imp K h x hx), ?_⟩
    intro hs hlen _ x hx
    rw [ARC_Contains_Get K h x hs hlen]
    exact hx

/-- C11 (monotone global cache). With `inmemoryMessages` positive every call returns, and
for every call that returns: `knownMessages` is left as it was, or, for a message that
decodes to `d`, it is the result of the lookup of the hash of `d` when the hash was held
(no `Add`), or of `Add` of that hash when it was not; every hash held afterwards was held
before or is the hash of the message; and in a cache of positive capacity that holds no
more than its capacity, every hash held before is held afterwards when the hash of the
message was held already or the cache is not full, so only an eviction by a full cache
can drop a hash. -/
theorem knownMessages_monotone (D : Decls Hash) (sb : backend Hash) (addr : Address)
    (msg : Msg) :
    (0 < D.inmemoryMessages → ∃ r sb1, HandleMsg D sb addr msg = some (r, sb1)) ∧
      ∀ r sb1, HandleMsg D sb addr msg = some (r, sb1) →
        (sb1.knownMessages = sb.knownMessages ∨
          ∃ d, D.Decode msg = some d ∧
            ((sb.knownMessages.Contains (D.RLPHash d) = true ∧
                sb1.knownMessages = (sb.knownMessages.Get (D.RLPHash d)).2) ∨
              (sb.knownMessages.Contains (D.RLPHash d) = false ∧
                sb1.knownMessages = sb.knownMessages.Add (D.RLPHash d) true))) ∧
        (∀ x, sb1.knownMessages.Contains x = true →
          sb.knownMessages.Contains x = true ∨ ∃ d, D.Decode msg = some d ∧ x = D.RLPHash d) ∧
        (sb.knownMessages.sized → sb.knownMessages.Len ≤ sb.knownMessages.size →
          (∀ d, D.Decode msg = some d → sb.knownMessages.Contains (D.RLPHash d) = true) ∨
            sb.knownMessages.Len < sb.knownMessages.size →
          ∀ x, sb.knownMessages.Contains x = true → sb1.knownMessages.Contains x = true) := by
  refine ⟨HandleMsg_returns D sb addr msg, ?_⟩
  intro r sb1 h
  rcases HandleMsg_cases D sb addr msg r sb1 h with
    ⟨_, _, rfl⟩ | ⟨_, _, _, rfl⟩ | ⟨_, _, _, _, rfl⟩ | ⟨_, _, d, recent, hdec, _, rfl⟩
  · exact ⟨Or.inl rfl, fun x hx => Or.inl hx, fun _ _ _ x hx => hx⟩
  · exact ⟨Or.inl rfl, fun x hx => Or.inl hx, fun _ _ _ x hx => hx⟩
  · exact ⟨Or.inl rfl, fun x hx => Or.inl hx, fun _ _ _ x hx => hx⟩
  · obtain ⟨k1, k2⟩ := known_after_keys sb.knownMessages (D.RLPHash d)
    refine ⟨Or.inr ⟨d, hdec, ?_⟩, ?_, ?_⟩
    · rcases Option.eq_none_or_eq_some (sb.knownMessages.Peek (D.RLPHash d)) with hp | ⟨v, hp⟩
      · right
        refine ⟨?_, ?_⟩
        · rw [ARC_Contains_eq_isSome, hp]
          rfl
        · simp only [hp]
      · left
        refine ⟨?_, ?_⟩
        · rw [ARC_Contains_eq_isSome, hp]
          rfl
        · simp only [hp]
    · intro x hx
      rcases k1 x hx with hx1 | hx1
      · exact Or.inl hx1
      · exact Or.inr ⟨d, hdec, hx1⟩
    · intro hs hlen hor x hx
      refine k2 hs hlen ?_ x hx
      rcases hor with hall | hroom
      · exact Or.inl (hall d hdec)
      · exact Or.inr hroom

/-- C11, at the example backend that knows the hash `09`: after the example message the
global cache still holds `09`, and holds nothing but `09` and the hash of the message. -/
theorem knownMessages_monotone_witness :
    ∃ r sb1, HandleMsg exampleDecls exampleBackend2 exampleAddress exampleMsg = some (r, sb1) ∧
      sb1.knownMessages.Contains [9] = true ∧
      ∀ x, sb1.knownMessages.Contains x = true →
        exampleBackend2.knownMessages.Contains x = true ∨
          ∃ d, exampleDecls.Decode exampleMsg = some d ∧ x = exampleDecls.RLPHash d :=
  have key := knownMessages_monotone exampleDecls exampleBackend2 exampleAddress exampleMsg
  match key.1 (by decide) with
  | ⟨r, sb1, h⟩ =>
    ⟨r, sb1, h, (key.2 r sb1 h).2.2 (by decide) (by decide) (Or.inr (by decide)) [9] (by decide),
      (key.2 r sb1 h).2.1⟩

/-- C12 (no effect without acceptance). A message whose code is not `smilobftMsg` gets
`(false, nil)` and leaves the state as it was; with `inmemoryMessages` positive every call
returns; and for every call that returns, the handled flag is true exactly when the code
is `smilobftMsg`, an error is `ErrStoppedEngine` or `errDecodeFailed`, and when the result
is `(false, nil)` or carries an error the whole state (with it `recentMessages`,
`knownMessages` and the posted events) is as before the call. -/
theorem HandleMsg_no_effect (D : Decls Hash) (sb : backend Hash) (addr : Address) (msg : Msg) :
    (msg.Code ≠ D.smilobftMsg → HandleMsg D sb addr msg = some ((false, none), sb)) ∧
      (0 < D.inmemoryMessages → ∃ r sb1, HandleMsg D sb addr msg = some (r, sb1)) ∧
      ∀ handled err sb1, HandleMsg D sb addr msg = some ((handled, err), sb1) →
        (handled = true ↔ msg.Code = D.smilobftMsg) ∧
        (∀ e, err = some e → e = .ErrStoppedEngine ∨ e = .errDecodeFailed) ∧
        ((handled = false ∧ err = none) ∨ err ≠ none →
          sb1.recentMessages = sb.recentMessages ∧ sb1.knownMessages = sb.knownMessages ∧
            sb1.posted = sb.posted ∧ sb1 = sb) := by
  refine ⟨?_, HandleMsg_returns D sb addr msg, ?_⟩
  · intro hcode
    unfold HandleMsg
    rw [if_neg hcode]
  · intro handled err sb1 h
    rcases HandleMsg_cases D sb addr msg (handled, err) sb1 h with
      ⟨hcode, hr, rfl⟩ | ⟨hcode, _, hr, rfl⟩ | ⟨hcode, _, _, hr, rfl⟩ |
      ⟨hcode, _, d, recent, _, hr, rfl⟩
    all_goals obtain ⟨rfl, rfl⟩ := Prod.mk.inj hr
    · exact ⟨⟨fun hf => (by cases hf), fun hc => absurd hc hcode⟩, fun e he => (by cases he),
        fun _ => ⟨rfl, rfl, rfl, rfl⟩⟩
    · exact ⟨⟨fun _ => hcode, fun _ => rfl⟩, fun e he => (by cases he; exact Or.inl rfl),
        fun _ => ⟨rfl, rfl, rfl, rfl⟩⟩
    · exact ⟨⟨fun _ => hcode, fun _ => rfl⟩, fun e he => (by cases he; exact Or.inr rfl),
        fun _ => ⟨rfl, rfl, rfl, rfl⟩⟩
    · refine ⟨⟨fun _ => hcode, fun _ => rfl⟩, fun e he => (by cases he), ?_⟩
      rintro (⟨hf, _⟩ | hne)
      · cases hf
      · exact absurd rfl hne

/-- C12, at the example backend: a message of another code and a consensus message that
does not decode both leave the state as it was. -/
theorem HandleMsg_no_effect_witness :
    HandleMsg exampleDecls exampleBackend2 exampleAddress exampleOtherMsg =
        some ((false, none), exampleBackend2) ∧
      ∀ handled err sb1,
        HandleMsg exampleDecls exampleBackend2 exampleAddress exampleBadMsg =
            some ((handled, err), sb1) →
          handled = true ∧ err = some .errDecodeFailed ∧
            sb1.recentMessages = exampleBackend2.recentMessages ∧
            sb1.knownMessages = exampleBackend2.knownMessages ∧
            sb1.posted = exampleBackend2.posted :=
  ⟨(HandleMsg_no_effect exampleDecls exampleBackend2 exampleAddress exampleOtherMsg).1
      (by decide),
    fun handled err sb1 h =>
      have key := (HandleMsg_no_effect exampleDecls exampleBackend2 exampleAddress
        exampleBadMsg).2.2 handled err sb1 h
      have hres : HandleMsg exampleDecls exampleBackend2 exampleAddress exampleBadMsg =
          some ((true, some .errDecodeFailed), exampleBackend2) := rfl
      have heq : ((handled, err), sb1) = ((true, some Error.errDecodeFailed), exampleBackend2) :=
        Option.some.inj (h.symm.trans hres)
      have h1 : handled = true := congrArg (fun p => p.1.1) heq
      have h2 : err = some Error.errDecodeFailed := congrArg (fun p => p.1.2) heq
      have h3 := key.2.2 (Or.inr (by rw [h2]; exact fun hn => by cases hn))
      ⟨h1, h2, h3.1, h3.2.1, h3.2.2.1⟩⟩

end HandlerLemmas

end Smilo
